import Mathlib

set_option linter.unusedVariables false

/-! Verification of the shared runtime utilities of the Turbopack ECMAScript
runtime (crates/turbopack-ecmascript-runtime/js/src/shared/runtime-utils.ts),
as a shallow embedding in Lean.  JavaScript objects are modelled by their own
properties together with a prototype link; the stateful queue machinery of the
async-module part is modelled by explicit state passing. -/

/-- JavaScript values as consumed by the runtime-utils functions: the
primitives, plus objects given by their own (ordered) property list and a
prototype link.  The constructor leafProto stands for the members of
LEAF_PROTOTYPES other than null, that is getProto of a plain object, of an
array and of a function; their own properties are not modelled, matching the
fact that interopEsm never expands them. -/
inductive JsVal where
  | undefined
  | vnull
  | vint (n : Int)
  | vstr (s : String)
  | vbool (b : Bool)
  | leafProto (k : Nat)
  | obj (props : List (String × JsVal)) (proto : JsVal)

/-- Property read raw[key]: the own property if present, else the prototype
chain; undefined when nothing is found.  Leaf prototypes and primitives are
modelled as contributing no properties. -/
def getProp : JsVal → String → JsVal
  | .obj props proto, k =>
    match props.lookup k with
    | some v => v
    | none => getProp proto k
  | _, _ => .undefined

/-- Object.prototype.hasOwnProperty.call(o, k). -/
def hasOwn : JsVal → String → Bool
  | .obj props _, k => props.any (fun p => p.1 == k)
  | _, _ => false

/-- Reflect.ownKeys / Object.getOwnPropertyNames (string keys only). -/
def ownKeysOf : JsVal → List String
  | .obj props _ => props.map (·.1)
  | _ => []

def isUndefined : JsVal → Bool
  | .undefined => true
  | _ => false

/-- JavaScript truthiness, as used by conditions such as raw && raw.__esModule. -/
def truthy : JsVal → Bool
  | .undefined => false
  | .vnull => false
  | .vbool b => b
  | .vint n => n != 0
  | .vstr s => s != ""
  | .leafProto _ => true
  | .obj _ _ => true

/-- The test typeof object === "object" && object !== null of dynamicExport. -/
def isNonNullObject : JsVal → Bool
  | .obj _ _ => true
  | .leafProto _ => true
  | _ => false

/-- A JavaScript Error, keeping the fields the runtime reads: the message and
the optional machine-readable code field attached by moduleLookup. -/
structure JsError where
  message : String
  code : Option String
deriving DecidableEq

/-- Outcome of a call into moduleLookup: a returned value, a synchronous
throw, or a returned promise that rejects on its next scheduling turn. -/
inductive LookupResult where
  | value (v : JsVal)
  | raised (e : JsError)
  | rejection (e : JsError)

/-- The error built by moduleLookup on a missing entry. -/
def notFoundError (name : String) : JsError :=
  { message := "Cannot find module " ++ name, code := some "MODULE_NOT_FOUND" }

/-- moduleLookup(map, name, returnPromise): map[name]() if the map owns the
entry; otherwise a MODULE_NOT_FOUND error, thrown synchronously, or wrapped in
Promise.resolve().then(() => { throw e }) when returnPromise is set. -/
def moduleLookup (map : List (String × (Unit → JsVal))) (name : String)
    (returnPromise : Bool) : LookupResult :=
  match map.lookup name with
  | some f => .value (f ())
  | none =>
    let e := notFoundError name
    if returnPromise then .rejection e else .raised e

/-- The reexported-objects slot of a module ([REEXPORTED_OBJECTS]): none
before ensureDynamicExports has run; afterwards the ordered list of registered
re-export sources.  The Proxy view over the exports object is installed
exactly when the slot is created, so the view exists iff the slot is some. -/
def ensureDynamicExports (re : Option (List JsVal)) : List JsVal :=
  re.getD []

/-- dynamicExport(module, exports, object): ensure the proxy view, then push
the source onto the list only when it is a non-null object. -/
def dynamicExport (re : Option (List JsVal)) (object : JsVal) :
    Option (List JsVal) :=
  let l := ensureDynamicExports re
  if isNonNullObject object then some (l ++ [object]) else some l

/-- The get handler of the Proxy installed by ensureDynamicExports, falling
through the registered sources in registration order and returning the first
value that is not undefined. -/
def firstDefined : List JsVal → String → JsVal
  | [], _ => .undefined
  | o :: os, p =>
    let value := getProp o p
    if isUndefined value then firstDefined os p else value

/-- Proxy get: own properties and the special names default and __esModule
are served from the target; everything else falls through the sources. -/
def proxyGet (target : JsVal) (sources : List JsVal) (p : String) : JsVal :=
  if hasOwn target p || p == "default" || p == "__esModule" then getProp target p
  else firstDefined sources p

/-- Proxy ownKeys: the target keys, then for each source in order its own
keys, appending each key that is not "default" and not already listed. -/
def proxyOwnKeys (target : JsVal) (sources : List JsVal) : List String :=
  sources.foldl
    (fun keys o =>
      (ownKeysOf o).foldl
        (fun ks k => if k ≠ "default" ∧ k ∉ ks then ks ++ [k] else ks) keys)
    (ownKeysOf target)

/-- C9: moduleLookup returns map[name]() when the entry is present, and
otherwise synchronously raises an error carrying code MODULE_NOT_FOUND; with
returnPromise set the same failure is returned as a rejection carrying that
same error, and no synchronous raise is observable. -/
theorem moduleLookup_spec (map : List (String × (Unit → JsVal))) (name : String) :
    (∀ f, map.lookup name = some f →
      moduleLookup map name false = .value (f ()) ∧
      moduleLookup map name true = .value (f ())) ∧
    (map.lookup name = none →
      moduleLookup map name false = .raised (notFoundError name) ∧
      (notFoundError name).code = some "MODULE_NOT_FOUND" ∧
      moduleLookup map name true = .rejection (notFoundError name) ∧
      ∀ e, moduleLookup map name true ≠ .raised e) := by
  constructor
  · intro f hf
    simp [moduleLookup, hf]
  · intro hn
    simp [moduleLookup, hn, notFoundError]

/-- Witness for C9 at the inputs named by the spec. -/
theorem moduleLookup_spec_witness :
    moduleLookup [("a", fun _ => JsVal.vint 1)] "a" false = .value (.vint 1) ∧
    moduleLookup [] "missing" false = .raised (notFoundError "missing") ∧
    moduleLookup [] "missing" true = .rejection (notFoundError "missing") :=
  ⟨((moduleLookup_spec [("a", fun _ => JsVal.vint 1)] "a").1 _ rfl).1,
   ((moduleLookup_spec [] "missing").2 rfl).1,
   ((moduleLookup_spec [] "missing").2 rfl).2.2.1⟩

/-- C10: a dynamicExport call whose source is not a non-null object still
ensures the composite view exists (the reexported slot becomes, or stays,
set) but leaves the registered source list unchanged, so property reads and
key enumeration never consult such a source. -/
theorem dynamicExport_nonobject_ignored (re : Option (List JsVal)) (v : JsVal)
    (h : isNonNullObject v = false) :
    dynamicExport re v = some (ensureDynamicExports re) ∧
    (∀ target p, proxyGet target ((dynamicExport re v).getD []) p
        = proxyGet target (ensureDynamicExports re) p) ∧
    (∀ target, proxyOwnKeys target ((dynamicExport re v).getD [])
        = proxyOwnKeys target (ensureDynamicExports re)) := by
  have hd : dynamicExport re v = some (ensureDynamicExports re) := by
    simp [dynamicExport, h]
  refine ⟨hd, ?_, ?_⟩
  · intro target p; rw [hd]; rfl
  · intro target; rw [hd]; rfl

/-- Witness for C10: a numeric source (and a null source) is ignored while
the view is still created. -/
theorem dynamicExport_nonobject_ignored_witness :
    dynamicExport (some [JsVal.obj [("x", JsVal.vint 1)] .vnull]) (JsVal.vint 3)
      = some [JsVal.obj [("x", JsVal.vint 1)] .vnull] ∧
    dynamicExport none JsVal.vnull = some [] :=
  ⟨(dynamicExport_nonobject_ignored
      (some [JsVal.obj [("x", JsVal.vint 1)] .vnull]) (JsVal.vint 3) rfl).1,
   (dynamicExport_nonobject_ignored none JsVal.vnull rfl).1⟩

/-- A getter stored on a namespace object by interopEsm: either
createGetter(raw, key), reading the named property live off the raw exports,
or the closure () => raw added for "default". -/
inductive Getter where
  | prop (key : String)
  | rawSelf
deriving DecidableEq

/-- Invoke a getter against the raw exports value it closes over. -/
def evalGetter (raw : JsVal) : Getter → JsVal
  | .prop k => getProp raw k
  | .rawSelf => raw

/-- Own-property lookup on the getters record (created with
Object.create(null), so only own entries exist). -/
def lookupGetter : List (String × Getter) → String → Option Getter
  | [], _ => none
  | p :: gs, k => if p.1 = k then some p.2 else lookupGetter gs k

/-- The test key in getters. -/
def containsKeyG (gs : List (String × Getter)) (k : String) : Bool :=
  (lookupGetter gs k).isSome

/-- Property assignment getters[k] = g: overwrite in place when the key is
present, else append (insertion order is preserved, as in JavaScript). -/
def assign (gs : List (String × Getter)) (k : String) (g : Getter) :
    List (String × Getter) :=
  if containsKeyG gs k then gs.map (fun p => if p.1 = k then (k, g) else p)
  else gs ++ [(k, g)]

/-- One level of the interopEsm loop body: for each own property name of the
current chain level, getters[key] = createGetter(raw, key). -/
def assignLevel (gs : List (String × Getter)) (names : List String) :
    List (String × Getter) :=
  names.foldl (fun a k => assign a k (.prop k)) gs

/-- The chain walk of interopEsm.  The loop guard
(typeof current is object or function) && !LEAF_PROTOTYPES.includes(current)
holds exactly for the obj constructor: primitives fail the typeof test, and
vnull together with leafProto make up LEAF_PROTOTYPES. -/
def collectGetters : JsVal → List (String × Getter) → List (String × Getter)
  | .obj props proto, gs => collectGetters proto (assignLevel gs (props.map (·.1)))
  | _, gs => gs

/-- interopEsm getter construction: collect the chain getters, then add the
default getter () => raw unless allowExportDefault is set and a default
getter was already collected. -/
def interopEsmGetters (raw : JsVal) (allowExportDefault : Bool) :
    List (String × Getter) :=
  let getters := collectGetters raw []
  if allowExportDefault && containsKeyG getters "default" then getters
  else assign getters "default" .rawSelf

/-- A namespace object: the raw exports it was built over together with its
getter-backed properties (esm also marks it with __esModule and a string
tag; those marks carry no getter and are left implicit). -/
structure NsObj where
  raw : JsVal
  getters : List (String × Getter)

/-- interopEsm(raw, ns, allowExportDefault) with a fresh ns object. -/
def interopEsm (raw : JsVal) (allowExportDefault : Bool) : NsObj :=
  ⟨raw, interopEsmGetters raw allowExportDefault⟩

/-- Reading a property off the namespace object triggers its getter. -/
def nsRead (n : NsObj) (k : String) : JsVal :=
  match lookupGetter n.getters k with
  | some g => evalGetter n.raw g
  | none => .undefined

/-- Own property names of every chain level that the interopEsm loop visits
(the leaf prototypes and a primitive end contribute nothing). -/
def chainOwnNames : JsVal → List String
  | .obj props proto => props.map (·.1) ++ chainOwnNames proto
  | _ => []

/-- All getters produced by the chain walk read their own key off raw. -/
def CanonGetters (gs : List (String × Getter)) : Prop :=
  ∀ p ∈ gs, p.2 = Getter.prop p.1

theorem containsKeyG_cons_ne (p : String × Getter) (gs : List (String × Getter))
    (k : String) (hp : ¬ p.1 = k) :
    containsKeyG (p :: gs) k = containsKeyG gs k := by
  simp [containsKeyG, lookupGetter, hp]

theorem lookupGetter_map_self (gs : List (String × Getter)) (k : String)
    (g : Getter) (hs : containsKeyG gs k = true) :
    lookupGetter (gs.map (fun q => if q.1 = k then (k, g) else q)) k = some g := by
  induction gs with
  | nil => simp [containsKeyG, lookupGetter] at hs
  | cons p gs ih =>
    by_cases hp : p.1 = k
    · simp [lookupGetter, hp]
    · rw [containsKeyG_cons_ne p gs k hp] at hs
      simp only [List.map_cons]
      rw [if_neg hp]
      show (if p.1 = k then some p.2 else _) = some g
      rw [if_neg hp]
      exact ih hs

theorem lookupGetter_append_self (gs : List (String × Getter)) (k : String)
    (g : Getter) (hs : containsKeyG gs k = false) :
    lookupGetter (gs ++ [(k, g)]) k = some g := by
  induction gs with
  | nil => simp [lookupGetter]
  | cons p gs ih =>
    by_cases hp : p.1 = k
    · simp [containsKeyG, lookupGetter, hp] at hs
    · rw [containsKeyG_cons_ne p gs k hp] at hs
      simp only [List.cons_append]
      show (if p.1 = k then some p.2 else _) = some g
      rw [if_neg hp]
      exact ih hs

theorem lookupGetter_assign_self (gs : List (String × Getter)) (k : String)
    (g : Getter) : lookupGetter (assign gs k g) k = some g := by
  unfold assign
  by_cases hs : containsKeyG gs k = true
  · rw [if_pos hs]
    exact lookupGetter_map_self gs k g hs
  · rw [if_neg hs]
    exact lookupGetter_append_self gs k g (by simpa using hs)

theorem lookupGetter_map_ne (gs : List (String × Getter)) (k k2 : String)
    (g : Getter) (hne : k2 ≠ k) :
    lookupGetter (gs.map (fun q => if q.1 = k then (k, g) else q)) k2
      = lookupGetter gs k2 := by
  have hk2 : ¬ (k = k2) := fun h => hne h.symm
  induction gs with
  | nil => rfl
  | cons p gs ih =>
    by_cases hp : p.1 = k
    · have hp2 : ¬ (p.1 = k2) := by rw [hp]; exact hk2
      simp [lookupGetter, hp, hk2, hp2, ih]
    · by_cases hp2 : p.1 = k2
      · simp [lookupGetter, hp, hp2, hne]
      · simp [lookupGetter, hp, hp2, ih]

theorem lookupGetter_append_ne (gs : List (String × Getter)) (k k2 : String)
    (g : Getter) (hne : k2 ≠ k) :
    lookupGetter (gs ++ [(k, g)]) k2 = lookupGetter gs k2 := by
  have hk2 : ¬ (k = k2) := fun h => hne h.symm
  induction gs with
  | nil => simp [lookupGetter, hk2]
  | cons p gs ih =>
    by_cases hp : p.1 = k2
    · simp [lookupGetter, hp]
    · simp [lookupGetter, hp, ih]

theorem lookupGetter_assign_ne (gs : List (String × Getter)) (k k2 : String)
    (g : Getter) (hne : k2 ≠ k) :
    lookupGetter (assign gs k g) k2 = lookupGetter gs k2 := by
  unfold assign
  by_cases hs : containsKeyG gs k = true
  · rw [if_pos hs]
    exact lookupGetter_map_ne gs k k2 g hne
  · rw [if_neg hs]
    exact lookupGetter_append_ne gs k k2 g hne

theorem containsKeyG_assign (gs : List (String × Getter)) (k k2 : String)
    (g : Getter) :
    containsKeyG (assign gs k g) k2
      = (containsKeyG gs k2 || decide (k2 = k)) := by
  by_cases h : k2 = k
  · subst h
    simp [containsKeyG, lookupGetter_assign_self]
  · simp [containsKeyG, lookupGetter_assign_ne gs k k2 g h, h]

theorem containsKeyG_assignLevel (names : List String) :
    ∀ (gs : List (String × Getter)) (k : String),
    containsKeyG (assignLevel gs names) k
      = (containsKeyG gs k || decide (k ∈ names)) := by
  induction names with
  | nil => intro gs k; simp [assignLevel]
  | cons n names ih =>
    intro gs k
    have : assignLevel gs (n :: names) = assignLevel (assign gs n (.prop n)) names := rfl
    rw [this, ih, containsKeyG_assign]
    by_cases hk : k = n
    · simp [hk]
    · simp [hk, List.mem_cons]

theorem containsKeyG_collect : ∀ (raw : JsVal) (gs : List (String × Getter))
    (k : String), containsKeyG (collectGetters raw gs) k
      = (containsKeyG gs k || decide (k ∈ chainOwnNames raw))
  | .obj props proto, gs, k => by
    have hrec := containsKeyG_collect proto (assignLevel gs (props.map (·.1))) k
    simp only [collectGetters, chainOwnNames]
    rw [hrec, containsKeyG_assignLevel]
    by_cases h1 : k ∈ props.map (·.1) <;> by_cases h2 : k ∈ chainOwnNames proto <;>
      simp [h1, h2, List.mem_append]
  | .undefined, gs, k => by simp [collectGetters, chainOwnNames]
  | .vnull, gs, k => by simp [collectGetters, chainOwnNames]
  | .vint n, gs, k => by simp [collectGetters, chainOwnNames]
  | .vstr s, gs, k => by simp [collectGetters, chainOwnNames]
  | .vbool b, gs, k => by simp [collectGetters, chainOwnNames]
  | .leafProto i, gs, k => by simp [collectGetters, chainOwnNames]

theorem canon_assign (gs : List (String × Getter)) (k : String)
    (h : CanonGetters gs) : CanonGetters (assign gs k (.prop k)) := by
  intro p hp
  unfold assign at hp
  by_cases hs : containsKeyG gs k = true
  · rw [if_pos hs] at hp
    rcases List.mem_map.mp hp with ⟨q, hq, hqe⟩
    by_cases hqk : q.1 = k
    · rw [if_pos hqk] at hqe
      rw [← hqe]
    · rw [if_neg hqk] at hqe
      rw [← hqe]
      exact h q hq
  · rw [if_neg hs] at hp
    rcases List.mem_append.mp hp with hp | hp
    · exact h p hp
    · have hpe : p = (k, Getter.prop k) := by simpa using hp
      rw [hpe]

theorem canon_assignLevel (names : List String) :
    ∀ (gs : List (String × Getter)), CanonGetters gs →
      CanonGetters (assignLevel gs names) := by
  induction names with
  | nil => intro gs h; exact h
  | cons n names ih =>
    intro gs h
    exact ih (assign gs n (.prop n)) (canon_assign gs n h)

theorem canon_collect : ∀ (raw : JsVal) (gs : List (String × Getter)),
    CanonGetters gs → CanonGetters (collectGetters raw gs)
  | .obj props proto, gs, h =>
    canon_collect proto _ (canon_assignLevel (props.map (·.1)) gs h)
  | .undefined, gs, h => h
  | .vnull, gs, h => h
  | .vint n, gs, h => h
  | .vstr s, gs, h => h
  | .vbool b, gs, h => h
  | .leafProto i, gs, h => h

theorem lookupGetter_canon (gs : List (String × Getter)) (k : String)
    (g : Getter) (hc : CanonGetters gs) (hl : lookupGetter gs k = some g) :
    g = Getter.prop k := by
  induction gs with
  | nil => simp [lookupGetter] at hl
  | cons p gs ih =>
    by_cases hp : p.1 = k
    · simp [lookupGetter, hp] at hl
      have := hc p (List.mem_cons_self p gs)
      rw [← hl, this, hp]
    · simp [lookupGetter, hp] at hl
      exact ih (fun q hq => hc q (List.mem_cons_of_mem p hq)) hl

theorem lookupGetter_none_of_not_contains (gs : List (String × Getter))
    (k : String) (h : containsKeyG gs k = false) : lookupGetter gs k = none := by
  unfold containsKeyG at h
  cases hl : lookupGetter gs k with
  | none => rfl
  | some g => rw [hl] at h; simp at h

theorem nsRead_of_lookup (n : NsObj) (k : String) (g : Getter)
    (h : lookupGetter n.getters k = some g) : nsRead n k = evalGetter n.raw g := by
  unfold nsRead
  rw [h]

theorem mem_chain_of_hasOwn : ∀ (v : JsVal) (k : String),
    hasOwn v k = true → k ∈ chainOwnNames v
  | .obj props proto, k, h => by
    simp only [hasOwn, List.any_eq_true] at h
    rcases h with ⟨p, hp, hpe⟩
    have hpd : p.1 = k := by simpa using hpe
    simp only [chainOwnNames, List.mem_append]
    exact Or.inl (List.mem_map.mpr ⟨p, hp, hpd⟩)
  | .undefined, k, h => by simp [hasOwn] at h
  | .vnull, k, h => by simp [hasOwn] at h
  | .vint n, k, h => by simp [hasOwn] at h
  | .vstr s, k, h => by simp [hasOwn] at h
  | .vbool b, k, h => by simp [hasOwn] at h
  | .leafProto i, k, h => by simp [hasOwn] at h

/-- C6: interopEsm collects own property names from every level of the
prototype chain of raw, each collected name becoming a getter that reads the
live property off raw, and the walk stops at (and never expands) the shared
leaf prototypes of plain objects, arrays and functions, and at null. -/
theorem interopEsm_collects_chain (raw : JsVal) (k : String) :
    lookupGetter (collectGetters raw []) k
      = (if k ∈ chainOwnNames raw then some (Getter.prop k) else none) ∧
    evalGetter raw (Getter.prop k) = getProp raw k ∧
    (∀ (i : Nat) (gs : List (String × Getter)),
        collectGetters (JsVal.leafProto i) gs = gs) ∧
    (∀ gs : List (String × Getter), collectGetters JsVal.vnull gs = gs) := by
  refine ⟨?_, rfl, fun i gs => rfl, fun gs => rfl⟩
  have hck := containsKeyG_collect raw [] k
  have h0 : containsKeyG ([] : List (String × Getter)) k = false := rfl
  rw [h0, Bool.false_or] at hck
  by_cases hm : k ∈ chainOwnNames raw
  · rw [if_pos hm]
    rw [decide_eq_true hm] at hck
    cases hl : lookupGetter (collectGetters raw []) k with
    | none =>
      rw [containsKeyG, hl] at hck
      simp at hck
    | some g =>
      have hc : CanonGetters (collectGetters raw []) :=
        canon_collect raw [] (fun p hp => absurd hp (List.not_mem_nil p))
      rw [lookupGetter_canon _ k g hc hl]
  · rw [if_neg hm]
    rw [decide_eq_false hm] at hck
    exact lookupGetter_none_of_not_contains _ k hck

/-- C5 counterexample: take a raw value that does not own a default property
but inherits one from a non-leaf prototype level (in JavaScript,
raw = Object.create(objectWithDefault5)).  With allowExportDefault = true the
collected default getter is kept, so the exposed default is the inherited
value 5 and not raw itself, against the claim's fallback clause. -/
theorem interopEsm_default_inherited_counterexample :
    hasOwn (JsVal.obj [] (JsVal.obj [("default", JsVal.vint 5)] JsVal.vnull))
      "default" = false ∧
    nsRead (interopEsm
        (JsVal.obj [] (JsVal.obj [("default", JsVal.vint 5)] JsVal.vnull)) true)
      "default" = JsVal.vint 5 ∧
    nsRead (interopEsm
        (JsVal.obj [] (JsVal.obj [("default", JsVal.vint 5)] JsVal.vnull)) true)
      "default"
      ≠ JsVal.obj [] (JsVal.obj [("default", JsVal.vint 5)] JsVal.vnull) := by
  refine ⟨rfl, rfl, ?_⟩
  intro h
  have h5 : JsVal.vint 5
      = JsVal.obj [] (JsVal.obj [("default", JsVal.vint 5)] JsVal.vnull) := by
    rw [← h]
    rfl
  exact JsVal.noConfusion h5

/-- C5 amended: interopEsm(raw, false) always exposes default equal to raw
itself; interopEsm(raw, true) exposes default equal to the live raw.default
whenever a default getter was collected anywhere on the walked prototype
chain — in particular whenever raw owns a default property — and falls back
to raw itself only when no walked chain level provides one. -/
theorem interopEsm_default_amended (raw : JsVal) :
    nsRead (interopEsm raw false) "default" = raw ∧
    (containsKeyG (collectGetters raw []) "default" = true →
      nsRead (interopEsm raw true) "default" = getProp raw "default") ∧
    (containsKeyG (collectGetters raw []) "default" = false →
      nsRead (interopEsm raw true) "default" = raw) ∧
    (hasOwn raw "default" = true →
      nsRead (interopEsm raw true) "default" = getProp raw "default") := by
  have hgf : interopEsmGetters raw false
      = assign (collectGetters raw []) "default" Getter.rawSelf := by
    unfold interopEsmGetters
    simp
  have h1 : nsRead (interopEsm raw false) "default" = raw := by
    have := nsRead_of_lookup (interopEsm raw false) "default" Getter.rawSelf
      (by show lookupGetter (interopEsmGetters raw false) "default" = _
          rw [hgf, lookupGetter_assign_self])
    simpa [evalGetter] using this
  have h2 : containsKeyG (collectGetters raw []) "default" = true →
      nsRead (interopEsm raw true) "default" = getProp raw "default" := by
    intro hc
    have hgt : interopEsmGetters raw true = collectGetters raw [] := by
      unfold interopEsmGetters
      simp [hc]
    cases hl : lookupGetter (collectGetters raw []) "default" with
    | none =>
      rw [containsKeyG, hl] at hc
      simp at hc
    | some g =>
      have hcanon : CanonGetters (collectGetters raw []) :=
        canon_collect raw [] (fun p hp => absurd hp (List.not_mem_nil p))
      have hg := lookupGetter_canon _ "default" g hcanon hl
      have := nsRead_of_lookup (interopEsm raw true) "default" g
        (by show lookupGetter (interopEsmGetters raw true) "default" = _
            rw [hgt, hl])
      rw [hg] at this
      simpa [evalGetter] using this
  have h3 : containsKeyG (collectGetters raw []) "default" = false →
      nsRead (interopEsm raw true) "default" = raw := by
    intro hc
    have hgt : interopEsmGetters raw true
        = assign (collectGetters raw []) "default" Getter.rawSelf := by
      unfold interopEsmGetters
      simp [hc]
    have := nsRead_of_lookup (interopEsm raw true) "default" Getter.rawSelf
      (by show lookupGetter (interopEsmGetters raw true) "default" = _
          rw [hgt, lookupGetter_assign_self])
    simpa [evalGetter] using this
  refine ⟨h1, h2, h3, ?_⟩
  intro ho
  apply h2
  have hmem := mem_chain_of_hasOwn raw "default" ho
  have hck := containsKeyG_collect raw [] "default"
  have h0 : containsKeyG ([] : List (String × Getter)) "default" = false := rfl
  rw [h0, Bool.false_or, decide_eq_true hmem] at hck
  exact hck

/-- Witness for the amended C5: a CommonJS-shaped raw object without default
gets raw itself as default in both modes; an ESM-shaped raw owning default
keeps its own default under allowExportDefault = true. -/
theorem interopEsm_default_amended_witness :
    nsRead (interopEsm (JsVal.obj [("x", JsVal.vint 7)] JsVal.vnull) false)
      "default" = JsVal.obj [("x", JsVal.vint 7)] JsVal.vnull ∧
    nsRead (interopEsm (JsVal.obj [("x", JsVal.vint 7)] JsVal.vnull) true)
      "default" = JsVal.obj [("x", JsVal.vint 7)] JsVal.vnull ∧
    nsRead (interopEsm (JsVal.obj [("default", JsVal.vint 9)] JsVal.vnull) true)
      "default" = JsVal.vint 9 :=
  ⟨(interopEsm_default_amended (JsVal.obj [("x", JsVal.vint 7)] JsVal.vnull)).1,
   (interopEsm_default_amended
      (JsVal.obj [("x", JsVal.vint 7)] JsVal.vnull)).2.2.1 rfl,
   by
    have := (interopEsm_default_amended
      (JsVal.obj [("default", JsVal.vint 9)] JsVal.vnull)).2.2.2 rfl
    rw [this]
    rfl⟩

theorem isUndefined_eq (v : JsVal) (h : isUndefined v = true) : v = JsVal.undefined := by
  cases v
  case undefined => rfl
  all_goals simp [isUndefined] at h

theorem firstDefined_pair (r1 r2 : JsVal) (p : String) :
    firstDefined [r1, r2] p
      = (if isUndefined (getProp r1 p) then getProp r2 p else getProp r1 p) := by
  by_cases h1 : isUndefined (getProp r1 p) = true
  · by_cases h2 : isUndefined (getProp r2 p) = true
    · simp [firstDefined, h1, h2, isUndefined_eq _ h2]
    · simp [firstDefined, h1, h2]
  · simp [firstDefined, h1]

/-- Keys that a source introduces over already-listed keys: its own keys
that are not "default" and not yet discovered. -/
def newKeysFrom (acc : List String) (o : JsVal) : List String :=
  (ownKeysOf o).filter (fun k => decide (k ≠ "default" ∧ k ∉ acc))

theorem pushKeys_eq (l : List String) :
    ∀ acc : List String, l.Nodup →
    l.foldl (fun ks k => if k ≠ "default" ∧ k ∉ ks then ks ++ [k] else ks) acc
      = acc ++ l.filter (fun k => decide (k ≠ "default" ∧ k ∉ acc)) := by
  induction l with
  | nil =>
    intro acc h
    simp
  | cons k l ih =>
    intro acc hnd
    have hk_notmem : k ∉ l := (List.nodup_cons.mp hnd).1
    have hl_nd : l.Nodup := (List.nodup_cons.mp hnd).2
    by_cases hk : k ≠ "default" ∧ k ∉ acc
    · simp only [List.foldl_cons, if_pos hk]
      rw [ih (acc ++ [k]) hl_nd]
      have hfilter : l.filter (fun x => decide (x ≠ "default" ∧ x ∉ acc ++ [k]))
          = l.filter (fun x => decide (x ≠ "default" ∧ x ∉ acc)) := by
        apply List.filter_congr
        intro x hx
        have hxk : x ≠ k := fun hxe => hk_notmem (hxe ▸ hx)
        have hiff : (x ≠ "default" ∧ x ∉ acc ++ [k]) ↔ (x ≠ "default" ∧ x ∉ acc) := by
          constructor
          · rintro ⟨ha, hb⟩
            exact ⟨ha, fun hc => hb (List.mem_append.mpr (Or.inl hc))⟩
          · rintro ⟨ha, hb⟩
            refine ⟨ha, fun hc => ?_⟩
            rcases List.mem_append.mp hc with hc | hc
            · exact hb hc
            · simp at hc
              exact hxk hc
        exact decide_eq_decide.mpr hiff
      rw [hfilter]
      have hcons : (k :: l).filter (fun x => decide (x ≠ "default" ∧ x ∉ acc))
          = k :: l.filter (fun x => decide (x ≠ "default" ∧ x ∉ acc)) := by
        simp [List.filter_cons, hk]
      rw [hcons, List.append_assoc]
      rfl
    · simp only [List.foldl_cons, if_neg hk]
      rw [ih acc hl_nd]
      congr 1
      simp [List.filter_cons, hk]

theorem proxyOwnKeys_pair (t r1 r2 : JsVal)
    (h1 : (ownKeysOf r1).Nodup) (h2 : (ownKeysOf r2).Nodup) :
    proxyOwnKeys t [r1, r2]
      = ownKeysOf t ++ newKeysFrom (ownKeysOf t) r1
        ++ newKeysFrom (ownKeysOf t ++ newKeysFrom (ownKeysOf t) r1) r2 := by
  unfold proxyOwnKeys newKeysFrom
  simp only [List.foldl_cons, List.foldl_nil]
  rw [pushKeys_eq _ _ h1, pushKeys_eq _ _ h2]

theorem nodup_append_newKeys (acc : List String) (o : JsVal)
    (hacc : acc.Nodup) (ho : (ownKeysOf o).Nodup) :
    (acc ++ newKeysFrom acc o).Nodup := by
  refine List.Nodup.append hacc (ho.filter _) ?_
  intro a ha hb
  have hmem := List.of_mem_filter hb
  simp at hmem
  exact hmem.2 ha

/-- C4: with re-export sources registered in order R1 then R2, a read of a
property absent from the target's own properties and distinct from "default"
and "__esModule" returns the value from R1 when that is defined, else from
R2, else undefined; key enumeration lists the target's own keys, then the
keys R1 introduces, then the keys R2 introduces, excluding "default" from
the sources, each key exactly once in first-discovery order. -/
theorem dynamicReexport_read_and_enumeration (t r1 r2 : JsVal) (p : String)
    (ht : (ownKeysOf t).Nodup) (h1 : (ownKeysOf r1).Nodup)
    (h2 : (ownKeysOf r2).Nodup) (hown : hasOwn t p = false)
    (hd : p ≠ "default") (he : p ≠ "__esModule") :
    proxyGet t [r1, r2] p
      = (if isUndefined (getProp r1 p) then getProp r2 p else getProp r1 p) ∧
    proxyOwnKeys t [r1, r2]
      = ownKeysOf t ++ newKeysFrom (ownKeysOf t) r1
        ++ newKeysFrom (ownKeysOf t ++ newKeysFrom (ownKeysOf t) r1) r2 ∧
    (proxyOwnKeys t [r1, r2]).Nodup := by
  refine ⟨?_, proxyOwnKeys_pair t r1 r2 h1 h2, ?_⟩
  · unfold proxyGet
    have hcond : (hasOwn t p || p == "default" || p == "__esModule") = false := by
      simp [hown, hd, he]
    rw [hcond]
    simp only [Bool.false_eq_true, if_false]
    exact firstDefined_pair r1 r2 p
  · rw [proxyOwnKeys_pair t r1 r2 h1 h2]
    exact nodup_append_newKeys _ r2 (nodup_append_newKeys _ r1 ht h1) h2

/-- Witness for C4 on concrete target and sources: the read of "b" takes
R1's value, and enumeration is own keys, then R1's new keys, then R2's. -/
theorem dynamicReexport_witness :
    proxyGet (JsVal.obj [("a", JsVal.vint 1)] .vnull)
      [JsVal.obj [("b", JsVal.vint 2), ("default", JsVal.vint 0)] .vnull,
       JsVal.obj [("b", JsVal.vint 9), ("c", JsVal.vint 3)] .vnull] "b"
      = JsVal.vint 2 ∧
    proxyOwnKeys (JsVal.obj [("a", JsVal.vint 1)] .vnull)
      [JsVal.obj [("b", JsVal.vint 2), ("default", JsVal.vint 0)] .vnull,
       JsVal.obj [("b", JsVal.vint 9), ("c", JsVal.vint 3)] .vnull]
      = ["a", "b", "c"] := by
  have h := dynamicReexport_read_and_enumeration
    (JsVal.obj [("a", JsVal.vint 1)] .vnull)
    (JsVal.obj [("b", JsVal.vint 2), ("default", JsVal.vint 0)] .vnull)
    (JsVal.obj [("b", JsVal.vint 9), ("c", JsVal.vint 3)] .vnull) "b"
    (by decide) (by decide) (by decide) (by decide) (by decide) (by decide)
  refine ⟨?_, ?_⟩
  · rw [h.1]
    rfl
  · rw [h.2.1]
    rfl

/-- A module record as seen by the import bridge: raw exports, the stored
instantiation error, the optional cached namespace object, and the loaded
flag.  The id, children and parents fields are maintained by the external
registry and never touched by these functions, so they are omitted; the
registry contract getOrInstantiateModuleFromParent returns the same record
for repeated requests of one id, so both import paths are modelled directly
on the record. -/
structure ModuleRec where
  exports : JsVal
  error : Option JsError
  namespaceObject : Option NsObj
  loaded : Bool

/-- esmImport(sourceModule, id) on the record of id: throw a stored error,
return a cached namespace object unchanged, or build one with
interopEsm(raw, ns-fresh, raw && raw.__esModule) and cache it. -/
def esmImport (m : ModuleRec) : Except JsError NsObj × ModuleRec :=
  match m.error with
  | some e => (.error e, m)
  | none =>
    match m.namespaceObject with
    | some ns => (.ok ns, m)
    | none =>
      let raw := m.exports
      let ns := interopEsm raw (truthy raw && truthy (getProp raw "__esModule"))
      (.ok ns, { m with namespaceObject := some ns })

/-- commonJsRequire(sourceModule, id) on the record of id: throw a stored
error, else return the raw exports with no namespace construction. -/
def commonJsRequire (m : ModuleRec) : Except JsError JsVal :=
  match m.error with
  | some e => .error e
  | none => .ok m.exports

/-- C7: importing as a namespace is memoizing.  A second esmImport on the
record left by a first one returns the same result and the same record, and
a namespaceObject that is already assigned is never reassigned: the call
returns exactly the cached object (when no error is stored) and leaves the
field untouched. -/
theorem esmImport_memoizes (m : ModuleRec) :
    esmImport ((esmImport m).2) = esmImport m ∧
    (∀ ns, m.namespaceObject = some ns →
      (esmImport m).2.namespaceObject = some ns ∧
      (m.error = none → (esmImport m).1 = .ok ns)) := by
  constructor
  · cases he : m.error with
    | some e => simp [esmImport, he]
    | none =>
      cases hn : m.namespaceObject with
      | some ns => simp [esmImport, he, hn]
      | none => simp [esmImport, he, hn]
  · intro ns hn
    cases he : m.error with
    | some e => simp [esmImport, he, hn]
    | none => simp [esmImport, he, hn]

/-- Witness for C7: a record with a cached namespace object keeps it and a
repeated call is the identity on the record produced by the first call. -/
theorem esmImport_memoizes_witness :
    (esmImport ((esmImport
        { exports := JsVal.obj [] .vnull, error := none,
          namespaceObject := none, loaded := true }).2)
      = esmImport
        { exports := JsVal.obj [] .vnull, error := none,
          namespaceObject := none, loaded := true }) ∧
    (esmImport
        { exports := JsVal.obj [] .vnull, error := none,
          namespaceObject := some ⟨JsVal.undefined, []⟩, loaded := true }).1
      = .ok ⟨JsVal.undefined, []⟩ :=
  ⟨(esmImport_memoizes
      { exports := JsVal.obj [] .vnull, error := none,
        namespaceObject := none, loaded := true }).1,
   ((esmImport_memoizes
      { exports := JsVal.obj [] .vnull, error := none,
        namespaceObject := some ⟨JsVal.undefined, []⟩, loaded := true }).2
      ⟨JsVal.undefined, []⟩ rfl).2 rfl⟩

/-- C8: a stored instantiation error is replayed as-is by both import paths:
esmImport re-raises exactly the stored error and leaves the record unchanged
(so the error stays stored and nothing is re-executed or retried), and
commonJsRequire re-raises the same error. -/
theorem storedError_replayed (m : ModuleRec) (e : JsError)
    (h : m.error = some e) :
    (esmImport m).1 = .error e ∧
    (esmImport m).2 = m ∧
    (esmImport m).2.error = some e ∧
    commonJsRequire m = .error e := by
  refine ⟨?_, ?_, ?_, ?_⟩ <;> simp [esmImport, commonJsRequire, h]

/-- Witness for C8 on a concrete failed record. -/
theorem storedError_replayed_witness :
    (esmImport
        { exports := JsVal.undefined, error := some ⟨"boom", none⟩,
          namespaceObject := none, loaded := true }).1
      = .error ⟨"boom", none⟩ ∧
    commonJsRequire
        { exports := JsVal.undefined, error := some ⟨"boom", none⟩,
          namespaceObject := none, loaded := true }
      = .error ⟨"boom", none⟩ :=
  ⟨(storedError_replayed
      { exports := JsVal.undefined, error := some ⟨"boom", none⟩,
        namespaceObject := none, loaded := true } ⟨"boom", none⟩ rfl).1,
   (storedError_replayed
      { exports := JsVal.undefined, error := some ⟨"boom", none⟩,
        namespaceObject := none, loaded := true } ⟨"boom", none⟩ rfl).2.2.2⟩

/-! The async dependency resolver (resolveQueue, wrapDeps,
handleAsyncDependencies).  Queues and continuation functions live in mutable
tables; we model them as lists indexed by Nat and pass the state explicitly.
A continuation fn is modelled by its queueCount field together with a fired
counter recording how many times fn() was executed (the body of fn only
resolves a promise, so executing it has no synchronous effect on the
tables). -/

/-- One AsyncQueueFn: the queueCount field and the number of times the
function itself has been called. -/
structure FnState where
  queueCount : Int
  fired : Nat
deriving DecidableEq

/-- One AsyncQueue: an array of registered fns (by index into the fn table)
with a resolved flag. -/
structure Queue where
  resolved : Bool
  fns : List Nat
deriving DecidableEq

/-- The mutable tables: all queues and all continuation fns. -/
structure AsyncState where
  queues : List Queue
  fns : List FnState
deriving DecidableEq

/-- Default used for out-of-range queue indices.  A missing queue behaves
like a resolved one: both resolveQueue (via the truthiness test on queue)
and fnQueue (via the q && !q.resolved test) skip it. -/
def qMissing : Queue := ⟨true, []⟩

def fnMissing : FnState := ⟨0, 0⟩

def getQueue (s : AsyncState) (qi : Nat) : Queue := s.queues.getD qi qMissing

def getFn (s : AsyncState) (fi : Nat) : FnState := s.fns.getD fi fnMissing

def setFn (s : AsyncState) (fi : Nat) (f : FnState) : AsyncState :=
  { s with fns := s.fns.set fi f }

/-- First forEach of resolveQueue: fn.queueCount-- for every registered fn. -/
def decPass (s : AsyncState) (l : List Nat) : AsyncState :=
  l.foldl (fun s i =>
    setFn s i { getFn s i with queueCount := (getFn s i).queueCount - 1 }) s

/-- Second forEach of resolveQueue: fn.queueCount-- ? fn.queueCount++ : fn().
The post-decrement test restores the count when it was nonzero and otherwise
calls fn(), leaving the count at -1. -/
def firePass (s : AsyncState) (l : List Nat) : AsyncState :=
  l.foldl (fun s i =>
    let f := getFn s i
    if f.queueCount ≠ 0 then s
    else setFn s i ⟨f.queueCount - 1, f.fired + 1⟩) s

/-- resolveQueue(queue): if the queue exists and is unresolved, mark it
resolved, decrement every registered continuation, then fire those whose
count reached zero. -/
def resolveQueue (s : AsyncState) (qi : Nat) : AsyncState :=
  let q := getQueue s qi
  if q.resolved then s
  else
    let s1 := { s with queues := s.queues.set qi { q with resolved := true } }
    firePass (decPass s1 q.fns) q.fns

/-- The normalized shape wrapDeps produces for each dependency (the
AsyncModuleExt record): the live exports snapshot, the optional stored
error, and the list of queues its turbopackQueues function offers (an async
module handle offers its own queue followed by its dep queues; a wrapped
plain promise offers its one private queue; a plain value offers none). -/
structure DepExt where
  texports : JsVal
  terror : Option JsError
  tqueues : List Nat

/-- A dependency passed to handleAsyncDependencies: a plain non-thenable
value, a bare thenable (promise), or an existing async-module handle, which
is reused as-is. -/
inductive Dep where
  | plain (v : JsVal)
  | thenable
  | ext (e : DepExt)

/-- wrapDeps: plain values get an empty queue list, existing handles are
returned unchanged, and each bare promise allocates one fresh unresolved
private queue (its exports snapshot starts as the empty object; the then
handlers that later fill it are modelled by settleThenable). -/
def wrapDeps (s : AsyncState) : List Dep → AsyncState × List DepExt
  | [] => (s, [])
  | .plain v :: ds =>
    ((wrapDeps s ds).1, ⟨v, none, []⟩ :: (wrapDeps s ds).2)
  | .ext e :: ds =>
    ((wrapDeps s ds).1, e :: (wrapDeps s ds).2)
  | .thenable :: ds =>
    ((wrapDeps { s with queues := s.queues ++ [⟨false, []⟩] } ds).1,
     ⟨JsVal.obj [] (.leafProto 0), none, [s.queues.length]⟩
       :: (wrapDeps { s with queues := s.queues ++ [⟨false, []⟩] } ds).2)

/-- The then handlers installed by wrapDeps on a bare promise: on success
store the result as the exports snapshot, on failure store the error; either
way resolve the private queue. -/
def settleThenable (s : AsyncState) (d : DepExt) (qi : Nat)
    (outcome : Except JsError JsVal) : AsyncState × DepExt :=
  match outcome with
  | .ok v => (resolveQueue s qi, { d with texports := v })
  | .error e => (resolveQueue s qi, { d with terror := some e })

/-- getResult: map over the wrapped deps, throwing the stored error of the
first failing dep in list order, else returning the exports snapshots. -/
def getResult : List DepExt → Except JsError (List JsVal)
  | [] => .ok []
  | d :: ds =>
    match d.terror with
    | some e => .error e
    | none => (getResult ds).map (d.texports :: ·)

/-- fnQueue(q): skip the module's own queue and queues already tracked in
depQueues; otherwise track the queue and, when it exists and is unresolved,
increment fn.queueCount and push fn onto it. -/
def fnQueueStep (own : Option Nat) (fi : Nat) :
    AsyncState × List Nat → Nat → AsyncState × List Nat :=
  fun sdq qi =>
    let s := sdq.1
    let dq := sdq.2
    if some qi = own ∨ qi ∈ dq then (s, dq)
    else
      let dq2 := dq ++ [qi]
      let q := getQueue s qi
      if q.resolved then (s, dq2)
      else
        (setFn { s with queues := s.queues.set qi { q with fns := q.fns ++ [fi] } }
           fi { getFn s fi with queueCount := (getFn s fi).queueCount + 1 },
         dq2)

/-- What handleAsyncDependencies returns: on the fast path the value of
getResult() itself — the materialized list, or a synchronous throw of the
first stored error — and on the slow path a promise that will later be
resolved with the getResult function, carried here by the index of the
registered continuation fn. -/
inductive HADReturn where
  | syncVal (r : Except JsError (List JsVal))
  | pending (fi : Nat)

/-- The shape of the JavaScript value handleAsyncDependencies evaluates to:
an array (fast path, no stored error), a thrown error (fast path, stored
error), or a promise (slow path).  A bare function is never returned: the
promise of the slow path resolves to the getResult function later, but the
call itself never hands the caller a function. -/
inductive RetShape where
  | arrayShape
  | thrownShape
  | promiseShape
  | functionShape
deriving DecidableEq

def retShape : HADReturn → RetShape
  | .syncVal (.ok _) => .arrayShape
  | .syncVal (.error _) => .thrownShape
  | .pending _ => .promiseShape

/-- handleAsyncDependencies(deps) for a module whose own queue is own and
whose persistent depQueues set currently holds dq0: wrap the deps, create
the fn with queueCount 0, run fnQueue over every queue offered by every
wrapped dep, in order, and return the pending promise when the count is
nonzero, else getResult() evaluated now. -/
def handleAsyncDependencies (s : AsyncState) (own : Option Nat)
    (dq0 : List Nat) (deps : List Dep) :
    AsyncState × List Nat × HADReturn :=
  let ws := wrapDeps s deps
  let s1 := ws.1
  let currentDeps := ws.2
  let fi := s1.fns.length
  let s2 := { s1 with fns := s1.fns ++ [⟨0, 0⟩] }
  let folded := ((currentDeps.map (·.tqueues)).flatten).foldl (fnQueueStep own fi) (s2, dq0)
  let s3 := folded.1
  let dq1 := folded.2
  if (getFn s3 fi).queueCount ≠ 0 then (s3, dq1, .pending fi)
  else (s3, dq1, .syncVal (getResult currentDeps))

/-- The queues a given fn index is registered in. -/
def registeredIn (s : AsyncState) (fi : Nat) : List Nat :=
  (List.range s.queues.length).filter (fun qi => decide (fi ∈ (getQueue s qi).fns))

theorem getD_set_self {α : Type} (l : List α) (i : Nat) (a d : α)
    (h : i < l.length) : (l.set i a).getD i d = a := by
  induction l generalizing i with
  | nil => simp at h
  | cons x l ih =>
    cases i with
    | zero => rfl
    | succ n =>
      show (l.set n a).getD n d = a
      exact ih n (by simpa using h)

theorem getD_set_ne {α : Type} (l : List α) (i j : Nat) (a d : α)
    (h : j ≠ i) : (l.set i a).getD j d = l.getD j d := by
  induction l generalizing i j with
  | nil => rfl
  | cons x l ih =>
    cases i with
    | zero =>
      cases j with
      | zero => exact absurd rfl h
      | succ m => rfl
    | succ n =>
      cases j with
      | zero => rfl
      | succ m =>
        show (l.set n a).getD m d = l.getD m d
        exact ih n m (fun hh => h (by rw [hh]))

theorem getD_append_length {α : Type} (l : List α) (a d : α) :
    (l ++ [a]).getD l.length d = a := by
  induction l with
  | nil => rfl
  | cons x l ih =>
    show (l ++ [a]).getD l.length d = a
    exact ih

theorem getD_append_lt {α : Type} (l l2 : List α) (i : Nat) (d : α)
    (h : i < l.length) : (l ++ l2).getD i d = l.getD i d := by
  induction l generalizing i with
  | nil => simp at h
  | cons x l ih =>
    cases i with
    | zero => rfl
    | succ n =>
      show (l ++ l2).getD n d = l.getD n d
      exact ih n (by simpa using h)

/-- Occurrence count of an index in a list. -/
def countIx (l : List Nat) (i : Nat) : Nat :=
  (l.filter (fun j => decide (j = i))).length

theorem countIx_nil (i : Nat) : countIx [] i = 0 := rfl

theorem countIx_cons (j : Nat) (l : List Nat) (i : Nat) :
    countIx (j :: l) i = (if j = i then 1 else 0) + countIx l i := by
  by_cases h : j = i
  · simp [countIx, List.filter_cons, h, Nat.add_comm]
  · simp [countIx, List.filter_cons, h]

theorem countIx_eq_zero_of_not_mem (l : List Nat) (i : Nat) (h : i ∉ l) :
    countIx l i = 0 := by
  induction l with
  | nil => rfl
  | cons j l ih =>
    have hj : j ≠ i := fun hji => h (hji ▸ List.mem_cons_self j l)
    rw [countIx_cons, if_neg hj, ih (fun hm => h (List.mem_cons_of_mem j hm))]

theorem countIx_append (l1 l2 : List Nat) (i : Nat) :
    countIx (l1 ++ l2) i = countIx l1 i + countIx l2 i := by
  simp [countIx, List.filter_append]

theorem mem_of_countIx_pos (l : List Nat) (i : Nat) (h : 0 < countIx l i) :
    i ∈ l := by
  by_contra hm
  rw [countIx_eq_zero_of_not_mem l i hm] at h
  exact Nat.lt_irrefl 0 h

theorem getFn_setFn_self (s : AsyncState) (fi : Nat) (f : FnState)
    (h : fi < s.fns.length) : getFn (setFn s fi f) fi = f :=
  getD_set_self s.fns fi f fnMissing h

theorem getFn_setFn_ne (s : AsyncState) (fi fj : Nat) (f : FnState)
    (h : fj ≠ fi) : getFn (setFn s fi f) fj = getFn s fj :=
  getD_set_ne s.fns fi fj f fnMissing h

theorem queues_setFn (s : AsyncState) (fi : Nat) (f : FnState) :
    (setFn s fi f).queues = s.queues := rfl

theorem fns_length_setFn (s : AsyncState) (fi : Nat) (f : FnState) :
    (setFn s fi f).fns.length = s.fns.length := by
  simp [setFn]

theorem queues_decPass (l : List Nat) : ∀ s : AsyncState,
    (decPass s l).queues = s.queues := by
  induction l with
  | nil => intro s; rfl
  | cons j l ih =>
    intro s
    show (decPass (setFn s j _) l).queues = s.queues
    rw [ih, queues_setFn]

theorem fns_length_decPass (l : List Nat) : ∀ s : AsyncState,
    (decPass s l).fns.length = s.fns.length := by
  induction l with
  | nil => intro s; rfl
  | cons j l ih =>
    intro s
    show (decPass (setFn s j _) l).fns.length = s.fns.length
    rw [ih, fns_length_setFn]

theorem getFn_decPass (l : List Nat) : ∀ (s : AsyncState) (fi : Nat),
    fi < s.fns.length →
    getFn (decPass s l) fi
      = ⟨(getFn s fi).queueCount - (countIx l fi : Int), (getFn s fi).fired⟩ := by
  induction l with
  | nil =>
    intro s fi h
    show getFn s fi = _
    rw [countIx_nil]
    simp
  | cons j l ih =>
    intro s fi h
    show getFn (decPass (setFn s j ⟨(getFn s j).queueCount - 1, (getFn s j).fired⟩) l) fi = _
    rw [countIx_cons]
    by_cases hj : j = fi
    · subst hj
      rw [ih _ j (by rw [fns_length_setFn]; exact h)]
      rw [getFn_setFn_self s j _ h]
      simp only [if_pos rfl]
      congr 1
      push_cast
      ring
    · rw [ih _ fi (by rw [fns_length_setFn]; exact h)]
      rw [getFn_setFn_ne s j fi _ (fun hf => hj hf.symm)]
      simp only [if_neg hj]
      congr 1
      push_cast
      ring

/-- The effect of the second forEach body on the fn it touches. -/
def fireStep (f : FnState) : FnState :=
  if f.queueCount ≠ 0 then f else ⟨f.queueCount - 1, f.fired + 1⟩

theorem queues_firePass (l : List Nat) : ∀ s : AsyncState,
    (firePass s l).queues = s.queues := by
  induction l with
  | nil => intro s; rfl
  | cons j l ih =>
    intro s
    show (firePass (if (getFn s j).queueCount ≠ 0 then s else _) l).queues = s.queues
    by_cases hc : (getFn s j).queueCount ≠ 0
    · rw [if_pos hc, ih]
    · rw [if_neg hc, ih, queues_setFn]

theorem fns_length_firePass (l : List Nat) : ∀ s : AsyncState,
    (firePass s l).fns.length = s.fns.length := by
  induction l with
  | nil => intro s; rfl
  | cons j l ih =>
    intro s
    show (firePass (if (getFn s j).queueCount ≠ 0 then s else _) l).fns.length = s.fns.length
    by_cases hc : (getFn s j).queueCount ≠ 0
    · rw [if_pos hc, ih]
    · rw [if_neg hc, ih, fns_length_setFn]

theorem getFn_firePass_not_mem (l : List Nat) : ∀ (s : AsyncState) (fi : Nat),
    fi ∉ l → getFn (firePass s l) fi = getFn s fi := by
  induction l with
  | nil => intro s fi h; rfl
  | cons j l ih =>
    intro s fi h
    have hj : fi ≠ j := fun hf => h (hf ▸ List.mem_cons_self j l)
    have hl : fi ∉ l := fun hm => h (List.mem_cons_of_mem j hm)
    show getFn (firePass (if (getFn s j).queueCount ≠ 0 then s else _) l) fi = getFn s fi
    by_cases hc : (getFn s j).queueCount ≠ 0
    · rw [if_pos hc, ih s fi hl]
    · rw [if_neg hc, ih _ fi hl, getFn_setFn_ne s j fi _ hj]

theorem getFn_firePass_once (l : List Nat) : ∀ (s : AsyncState) (fi : Nat),
    countIx l fi = 1 → fi < s.fns.length →
    getFn (firePass s l) fi = fireStep (getFn s fi) := by
  induction l with
  | nil => intro s fi h hlen; simp [countIx_nil] at h
  | cons j l ih =>
    intro s fi h hlen
    rw [countIx_cons] at h
    by_cases hj : j = fi
    · subst hj
      rw [if_pos rfl] at h
      have hl0 : countIx l j = 0 := by omega
      have hlm : j ∉ l := by
        by_contra hm
        have : 0 < countIx l j := by
          rcases List.mem_iff_append.mp hm with ⟨l1, l2, rfl⟩
          rw [countIx_append, countIx_cons, if_pos rfl]
          omega
        omega
      show getFn (firePass (if (getFn s j).queueCount ≠ 0 then s else _) l) j = _
      by_cases hc : (getFn s j).queueCount ≠ 0
      · rw [if_pos hc, getFn_firePass_not_mem l s j hlm]
        rw [fireStep, if_pos hc]
      · rw [if_neg hc, getFn_firePass_not_mem l _ j hlm,
            getFn_setFn_self s j _ hlen]
        rw [fireStep, if_neg hc]
    · rw [if_neg hj, Nat.zero_add] at h
      show getFn (firePass (if (getFn s j).queueCount ≠ 0 then s else _) l) fi = _
      by_cases hc : (getFn s j).queueCount ≠ 0
      · rw [if_pos hc, ih s fi h hlen]
      · rw [if_neg hc, ih _ fi h (by rw [fns_length_setFn]; exact hlen),
            getFn_setFn_ne s j fi _ (fun hf => hj hf.symm)]

theorem getD_ge_length {α : Type} (l : List α) (i : Nat) (d : α)
    (h : l.length ≤ i) : l.getD i d = d := by
  induction l generalizing i with
  | nil => rfl
  | cons x l ih =>
    cases i with
    | zero => simp at h
    | succ n =>
      show l.getD n d = d
      exact ih n (by simpa using h)

theorem countIx_pos_of_mem (l : List Nat) (i : Nat) (h : i ∈ l) :
    0 < countIx l i := by
  rcases List.mem_iff_append.mp h with ⟨l1, l2, rfl⟩
  rw [countIx_append, countIx_cons, if_pos rfl]
  omega

theorem not_mem_of_countIx_zero (l : List Nat) (i : Nat)
    (h : countIx l i = 0) : i ∉ l := by
  intro hm
  have := countIx_pos_of_mem l i hm
  omega

theorem lt_of_unresolved (s : AsyncState) (qi : Nat)
    (h : (getQueue s qi).resolved = false) : qi < s.queues.length := by
  by_contra hge
  have hq : getQueue s qi = qMissing :=
    getD_ge_length s.queues qi qMissing (Nat.le_of_not_lt hge)
  rw [hq] at h
  simp [qMissing] at h

theorem resolveQueue_of_resolved (s : AsyncState) (qi : Nat)
    (h : (getQueue s qi).resolved = true) : resolveQueue s qi = s := by
  unfold resolveQueue
  rw [if_pos h]

theorem resolveQueue_of_unresolved (s : AsyncState) (qi : Nat)
    (h : (getQueue s qi).resolved = false) :
    resolveQueue s qi
      = firePass
          (decPass
            { s with queues :=
                s.queues.set qi { getQueue s qi with resolved := true } }
            (getQueue s qi).fns)
          (getQueue s qi).fns := by
  unfold resolveQueue
  rw [if_neg (by rw [h]; exact Bool.false_ne_true)]

theorem getQueue_resolveQueue_fns (s : AsyncState) (qi qj : Nat) :
    (getQueue (resolveQueue s qi) qj).fns = (getQueue s qj).fns := by
  by_cases h : (getQueue s qi).resolved = true
  · rw [resolveQueue_of_resolved s qi h]
  · have h' : (getQueue s qi).resolved = false := by simpa using h
    rw [resolveQueue_of_unresolved s qi h']
    unfold getQueue
    rw [queues_firePass, queues_decPass]
    by_cases hj : qj = qi
    · subst hj
      have hlt := lt_of_unresolved s qj h'
      show (((s.queues.set qj _).getD qj qMissing)).fns = _
      rw [getD_set_self _ _ _ _ hlt]
    · show (((s.queues.set qi _).getD qj qMissing)).fns = _
      rw [getD_set_ne _ _ _ _ _ hj]

theorem getQueue_resolveQueue_resolved_ne (s : AsyncState) (qi qj : Nat)
    (hj : qj ≠ qi) :
    (getQueue (resolveQueue s qi) qj).resolved = (getQueue s qj).resolved := by
  by_cases h : (getQueue s qi).resolved = true
  · rw [resolveQueue_of_resolved s qi h]
  · have h' : (getQueue s qi).resolved = false := by simpa using h
    rw [resolveQueue_of_unresolved s qi h']
    unfold getQueue
    rw [queues_firePass, queues_decPass]
    show (((s.queues.set qi _).getD qj qMissing)).resolved = _
    rw [getD_set_ne _ _ _ _ _ hj]

theorem getQueue_resolveQueue_resolved_self (s : AsyncState) (qi : Nat) :
    (getQueue (resolveQueue s qi) qi).resolved = true := by
  by_cases h : (getQueue s qi).resolved = true
  · rw [resolveQueue_of_resolved s qi h]
    exact h
  · have h' : (getQueue s qi).resolved = false := by simpa using h
    rw [resolveQueue_of_unresolved s qi h']
    unfold getQueue
    rw [queues_firePass, queues_decPass]
    have hlt := lt_of_unresolved s qi h'
    show (((s.queues.set qi _).getD qi qMissing)).resolved = true
    rw [getD_set_self _ _ _ _ hlt]

theorem fns_length_resolveQueue (s : AsyncState) (qi : Nat) :
    (resolveQueue s qi).fns.length = s.fns.length := by
  by_cases h : (getQueue s qi).resolved = true
  · rw [resolveQueue_of_resolved s qi h]
  · have h' : (getQueue s qi).resolved = false := by simpa using h
    rw [resolveQueue_of_unresolved s qi h']
    rw [fns_length_firePass, fns_length_decPass]

theorem getFn_resolveQueue_untouched (s : AsyncState) (qi fi : Nat)
    (hlen : fi < s.fns.length)
    (h : (getQueue s qi).resolved = false)
    (hc : countIx (getQueue s qi).fns fi = 0) :
    getFn (resolveQueue s qi) fi = getFn s fi := by
  rw [resolveQueue_of_unresolved s qi h]
  have hnm : fi ∉ (getQueue s qi).fns := not_mem_of_countIx_zero _ _ hc
  rw [getFn_firePass_not_mem _ _ _ hnm]
  have hd := getFn_decPass (getQueue s qi).fns
    { s with queues := s.queues.set qi { getQueue s qi with resolved := true } }
    fi hlen
  rw [hd, hc]
  show (⟨(getFn s fi).queueCount - 0, (getFn s fi).fired⟩ : FnState) = getFn s fi
  simp

theorem getFn_resolveQueue_once (s : AsyncState) (qi fi : Nat)
    (hlen : fi < s.fns.length)
    (h : (getQueue s qi).resolved = false)
    (hc : countIx (getQueue s qi).fns fi = 1) :
    getFn (resolveQueue s qi) fi
      = fireStep ⟨(getFn s fi).queueCount - 1, (getFn s fi).fired⟩ := by
  rw [resolveQueue_of_unresolved s qi h]
  have hlen2 : fi <
      (decPass
        { s with queues :=
            s.queues.set qi { getQueue s qi with resolved := true } }
        (getQueue s qi).fns).fns.length := by
    rw [fns_length_decPass]
    exact hlen
  rw [getFn_firePass_once _ _ _ hc hlen2]
  have hd := getFn_decPass (getQueue s qi).fns
    { s with queues := s.queues.set qi { getQueue s qi with resolved := true } }
    fi hlen
  rw [hd, hc]
  rfl

/-- Number of still-unresolved queues among a fixed list of queue indices. -/
def unresolvedCount (s : AsyncState) (R : List Nat) : Nat :=
  (R.filter (fun qi => !(getQueue s qi).resolved)).length

theorem unresolvedCount_congr (R : List Nat) (s s' : AsyncState)
    (h : ∀ qj ∈ R, (getQueue s' qj).resolved = (getQueue s qj).resolved) :
    unresolvedCount s' R = unresolvedCount s R := by
  unfold unresolvedCount
  have hf : R.filter (fun qi => !(getQueue s' qi).resolved)
      = R.filter (fun qi => !(getQueue s qi).resolved) := by
    apply List.filter_congr
    intro qj hj
    rw [h qj hj]
  rw [hf]

theorem unresolvedCount_resolve (R : List Nat) (qi : Nat) (s s' : AsyncState)
    (hnd : R.Nodup) (hmem : qi ∈ R)
    (hbefore : (getQueue s qi).resolved = false)
    (hafter : (getQueue s' qi).resolved = true)
    (hoth : ∀ qj ∈ R, qj ≠ qi →
      (getQueue s' qj).resolved = (getQueue s qj).resolved) :
    unresolvedCount s R = unresolvedCount s' R + 1 := by
  induction R with
  | nil => exact absurd hmem (List.not_mem_nil qi)
  | cons r R ih =>
    have hndR : R.Nodup := (List.nodup_cons.mp hnd).2
    by_cases hr : r = qi
    · subst hr
      have hnotR : r ∉ R := (List.nodup_cons.mp hnd).1
      have htail : unresolvedCount s' (r :: R) = unresolvedCount s' R := by
        unfold unresolvedCount
        rw [List.filter_cons, hafter]
        rfl
      have hhead : unresolvedCount s (r :: R) = unresolvedCount s R + 1 := by
        unfold unresolvedCount
        rw [List.filter_cons, hbefore]
        simp [Nat.add_comm]
      rw [htail, hhead]
      have hRsame : unresolvedCount s' R = unresolvedCount s R := by
        apply unresolvedCount_congr
        intro qj hj
        exact hoth qj (List.mem_cons_of_mem r hj)
          (fun hq => hnotR (hq ▸ hj))
      rw [hRsame]
    · have hmemR : qi ∈ R := by
        rcases List.mem_cons.mp hmem with hh | hh
        · exact absurd hh.symm hr
        · exact hh
      have hrsame : (getQueue s' r).resolved = (getQueue s r).resolved :=
        hoth r (List.mem_cons_self r R) hr
      have hih := ih hndR hmemR
        (fun qj hj hne => hoth qj (List.mem_cons_of_mem r hj) hne)
      unfold unresolvedCount
      rw [List.filter_cons, List.filter_cons, hrsame]
      by_cases hres : (getQueue s r).resolved = true
      · rw [hres]
        exact hih
      · have : (getQueue s r).resolved = false := by simpa using hres
        rw [this]
        show (r :: R.filter (fun qj => !(getQueue s qj).resolved)).length
            = (r :: R.filter (fun qj => !(getQueue s' qj).resolved)).length + 1
        simp only [List.length_cons]
        unfold unresolvedCount at hih
        omega

/-- The fan-in invariant for a continuation fn registered in exactly the
queues R (all of which held it exactly once when registration finished):
while some R queue is unresolved the count equals the number of unresolved
R queues and the fn has never fired; once all are resolved it has fired
exactly once (with the post-decrement leaving the count at -1), except that
a continuation registered against no queue never fires. -/
def FanInInv (R : List Nat) (fi : Nat) (s : AsyncState) : Prop :=
  fi < s.fns.length ∧
  (∀ qi ∈ R, countIx (getQueue s qi).fns fi = 1) ∧
  (∀ qi, qi ∉ R → fi ∉ (getQueue s qi).fns) ∧
  (if 0 < unresolvedCount s R then
      getFn s fi = ⟨(unresolvedCount s R : Int), 0⟩
   else if R.isEmpty then getFn s fi = ⟨0, 0⟩
   else getFn s fi = ⟨-1, 1⟩)

theorem fanInInv_resolveQueue (R : List Nat) (fi : Nat) (hnd : R.Nodup)
    (s : AsyncState) (qi : Nat) (hinv : FanInInv R fi s) :
    FanInInv R fi (resolveQueue s qi) := by
  obtain ⟨hlen, hcnt, hnot, hnum⟩ := hinv
  by_cases hres : (getQueue s qi).resolved = true
  · rw [resolveQueue_of_resolved s qi hres]
    exact ⟨hlen, hcnt, hnot, hnum⟩
  · have hres' : (getQueue s qi).resolved = false := by simpa using hres
    have hfns : ∀ qj, (getQueue (resolveQueue s qi) qj).fns
        = (getQueue s qj).fns := fun qj => getQueue_resolveQueue_fns s qi qj
    refine ⟨by rw [fns_length_resolveQueue]; exact hlen, ?_, ?_, ?_⟩
    · intro qj hj
      rw [hfns qj]
      exact hcnt qj hj
    · intro qj hj
      rw [hfns qj]
      exact hnot qj hj
    · by_cases hmem : qi ∈ R
      · have hc1 := hcnt qi hmem
        have hu_pos : 0 < unresolvedCount s R := by
          have hin : qi ∈ R.filter (fun r => !(getQueue s r).resolved) :=
            List.mem_filter.mpr ⟨hmem, by rw [hres']; rfl⟩
          exact List.length_pos_of_mem hin
        have hold : getFn s fi = ⟨(unresolvedCount s R : Int), 0⟩ := by
          rw [if_pos hu_pos] at hnum
          exact hnum
        have hstep := getFn_resolveQueue_once s qi fi hlen hres' hc1
        have hcount := unresolvedCount_resolve R qi s (resolveQueue s qi) hnd
          hmem hres' (getQueue_resolveQueue_resolved_self s qi)
          (fun qj hj hne => getQueue_resolveQueue_resolved_ne s qi qj hne)
        rw [hstep, hold]
        by_cases hu' : 0 < unresolvedCount (resolveQueue s qi) R
        · rw [if_pos hu']
          have : ((unresolvedCount s R : Int) - 1)
              = (unresolvedCount (resolveQueue s qi) R : Int) := by
            rw [hcount]
            push_cast
            ring
          show fireStep ⟨(unresolvedCount s R : Int) - 1, 0⟩ = _
          rw [this]
          unfold fireStep
          rw [if_pos (by
            simp only [ne_eq]
            intro hzero
            rw [Int.natCast_eq_zero.mp hzero] at hu'
            exact Nat.lt_irrefl 0 hu')]
        · rw [if_neg hu']
          have hz : unresolvedCount (resolveQueue s qi) R = 0 := by omega
          have hRne : R.isEmpty = false := by
            cases R with
            | nil => exact absurd hmem (List.not_mem_nil qi)
            | cons a l => rfl
          rw [hRne]
          simp only [Bool.false_eq_true, if_false]
          have hone : unresolvedCount s R = 1 := by omega
          show fireStep ⟨(unresolvedCount s R : Int) - 1, 0⟩ = _
          rw [hone]
          unfold fireStep
          rw [if_neg (by simp)]
          rfl
      · have hc0 : countIx (getQueue s qi).fns fi = 0 :=
          countIx_eq_zero_of_not_mem _ _ (hnot qi hmem)
        have hsame := getFn_resolveQueue_untouched s qi fi hlen hres' hc0
        have hucount : unresolvedCount (resolveQueue s qi) R
            = unresolvedCount s R := by
          apply unresolvedCount_congr
          intro qj hj
          exact getQueue_resolveQueue_resolved_ne s qi qj
            (fun hq => hmem (hq ▸ hj))
        rw [hsame, hucount]
        exact hnum

theorem fanInInv_fold (R : List Nat) (fi : Nat) (hnd : R.Nodup)
    (rs : List Nat) : ∀ s, FanInInv R fi s →
    FanInInv R fi (rs.foldl resolveQueue s) := by
  induction rs with
  | nil =>
    intro s h
    exact h
  | cons r rs ih =>
    intro s h
    exact ih (resolveQueue s r) (fanInInv_resolveQueue R fi hnd s r h)

def isThenable : Dep → Bool
  | .thenable => true
  | _ => false

/-- A dependency all of whose offered queues are already resolved at
registration time: a plain value has none; an async handle offers its
queues; a bare promise always gets a fresh unresolved queue, so it is never
already resolved. -/
def depOffersResolved (s : AsyncState) : Dep → Bool
  | .plain _ => true
  | .thenable => false
  | .ext e => e.tqueues.all (fun qi => (getQueue s qi).resolved)

theorem wrapDeps_fns : ∀ (deps : List Dep) (s : AsyncState),
    (wrapDeps s deps).1.fns = s.fns
  | [], s => rfl
  | .plain v :: ds, s => wrapDeps_fns ds s
  | .ext e :: ds, s => wrapDeps_fns ds s
  | .thenable :: ds, s =>
    wrapDeps_fns ds { s with queues := s.queues ++ [⟨false, []⟩] }

theorem wrapDeps_queue_fns : ∀ (deps : List Dep) (s : AsyncState) (qi : Nat),
    (getQueue (wrapDeps s deps).1 qi).fns = (getQueue s qi).fns
  | [], s, qi => rfl
  | .plain v :: ds, s, qi => wrapDeps_queue_fns ds s qi
  | .ext e :: ds, s, qi => wrapDeps_queue_fns ds s qi
  | .thenable :: ds, s, qi => by
    show (getQueue (wrapDeps { s with queues := s.queues ++ [⟨false, []⟩] } ds).1 qi).fns
        = (getQueue s qi).fns
    rw [wrapDeps_queue_fns ds { s with queues := s.queues ++ [⟨false, []⟩] } qi]
    unfold getQueue
    rcases Nat.lt_trichotomy qi s.queues.length with h | h | h
    · show ((s.queues ++ [Queue.mk false []]).getD qi qMissing).fns
          = (s.queues.getD qi qMissing).fns
      rw [getD_append_lt _ _ _ _ h]
    · subst h
      show ((s.queues ++ [Queue.mk false []]).getD s.queues.length qMissing).fns
          = (s.queues.getD s.queues.length qMissing).fns
      rw [getD_append_length, getD_ge_length _ _ _ (Nat.le_refl _)]
      rfl
    · show ((s.queues ++ [Queue.mk false []]).getD qi qMissing).fns
          = (s.queues.getD qi qMissing).fns
      rw [getD_ge_length _ _ _ (by simpa using h),
          getD_ge_length _ _ _ (Nat.le_of_lt h)]

theorem wrapDeps_no_thenable : ∀ (deps : List Dep),
    (∀ d ∈ deps, isThenable d = false) → ∀ s : AsyncState,
    (wrapDeps s deps).1 = s
  | [], h, s => rfl
  | .plain v :: ds, h, s =>
    wrapDeps_no_thenable ds (fun d hd => h d (List.mem_cons_of_mem _ hd)) s
  | .ext e :: ds, h, s =>
    wrapDeps_no_thenable ds (fun d hd => h d (List.mem_cons_of_mem _ hd)) s
  | .thenable :: ds, h, s => by
    have := h .thenable (List.mem_cons_self _ _)
    simp [isThenable] at this

theorem mem_flatten_wrapDeps : ∀ (deps : List Dep),
    (∀ d ∈ deps, isThenable d = false) → ∀ (s : AsyncState) (qi : Nat),
    qi ∈ (((wrapDeps s deps).2.map (·.tqueues)).flatten) →
    ∃ e : DepExt, Dep.ext e ∈ deps ∧ qi ∈ e.tqueues
  | [], h, s, qi, hm => absurd hm (List.not_mem_nil qi)
  | .plain v :: ds, h, s, qi, hm => by
    have hm2 : qi ∈ (((wrapDeps s ds).2.map (·.tqueues)).flatten) := hm
    rcases mem_flatten_wrapDeps ds
      (fun d hd => h d (List.mem_cons_of_mem _ hd)) s qi hm2 with ⟨e, he, hq⟩
    exact ⟨e, List.mem_cons_of_mem _ he, hq⟩
  | .ext e0 :: ds, h, s, qi, hm => by
    have hm1 : qi ∈ e0.tqueues ++ ((wrapDeps s ds).2.map (·.tqueues)).flatten := hm
    have hm2 : qi ∈ e0.tqueues
        ∨ qi ∈ (((wrapDeps s ds).2.map (·.tqueues)).flatten) :=
      List.mem_append.mp hm1
    rcases hm2 with hq | hm3
    · exact ⟨e0, List.mem_cons_self _ _, hq⟩
    · rcases mem_flatten_wrapDeps ds
        (fun d hd => h d (List.mem_cons_of_mem _ hd)) s qi hm3 with ⟨e, he, hq⟩
      exact ⟨e, List.mem_cons_of_mem _ he, hq⟩
  | .thenable :: ds, h, s, qi, hm => by
    have := h .thenable (List.mem_cons_self _ _)
    simp [isThenable] at this

theorem fnQueueStep_skip (own : Option Nat) (fi : Nat) (s : AsyncState)
    (dq : List Nat) (qi : Nat) (h : some qi = own ∨ qi ∈ dq) :
    fnQueueStep own fi (s, dq) qi = (s, dq) := by
  simp only [fnQueueStep]
  rw [if_pos h]

theorem fnQueueStep_resolved (own : Option Nat) (fi : Nat) (s : AsyncState)
    (dq : List Nat) (qi : Nat) (h : ¬(some qi = own ∨ qi ∈ dq))
    (hr : (getQueue s qi).resolved = true) :
    fnQueueStep own fi (s, dq) qi = (s, dq ++ [qi]) := by
  simp only [fnQueueStep]
  rw [if_neg h, if_pos hr]

/-- The state produced by the push branch of fnQueue: fn fi appended to
queue qi and its queueCount incremented. -/
def pushedState (s : AsyncState) (qi fi : Nat) : AsyncState :=
  setFn { s with queues := s.queues.set qi (Queue.mk (getQueue s qi).resolved ((getQueue s qi).fns ++ [fi])) } fi ⟨(getFn s fi).queueCount + 1, (getFn s fi).fired⟩

theorem fnQueueStep_push (own : Option Nat) (fi : Nat) (s : AsyncState)
    (dq : List Nat) (qi : Nat) (h : ¬(some qi = own ∨ qi ∈ dq))
    (hr : (getQueue s qi).resolved = false) :
    fnQueueStep own fi (s, dq) qi = (pushedState s qi fi, dq ++ [qi]) := by
  simp only [fnQueueStep]
  rw [if_neg h, if_neg (by rw [hr]; exact Bool.false_ne_true)]
  rfl

/-- Invariant maintained while the fnQueue fold registers the fresh fn fi
over the dep queues: relative to the state s0 at the start of the fold,
roster lists the queues the fn has been pushed into so far (each holding it
once, each unresolved), queue flags and table sizes are unchanged, every
roster queue has been recorded in depQueues, and queueCount equals the
roster size. -/
def RegInv (s0 : AsyncState) (fi : Nat) (roster : List Nat) (s : AsyncState)
    (dq : List Nat) : Prop :=
  s.queues.length = s0.queues.length ∧
  s.fns.length = s0.fns.length ∧
  (∀ qi, (getQueue s qi).resolved = (getQueue s0 qi).resolved) ∧
  roster.Nodup ∧
  (∀ qi ∈ roster, countIx (getQueue s qi).fns fi = 1 ∧
    (getQueue s0 qi).resolved = false) ∧
  (∀ qi, qi ∉ roster → fi ∉ (getQueue s qi).fns) ∧
  (∀ qi ∈ roster, qi ∈ dq) ∧
  getFn s fi = ⟨(roster.length : Int), 0⟩

theorem regInv_step (own : Option Nat) (fi : Nat) (s0 : AsyncState)
    (hfi : fi < s0.fns.length) (s : AsyncState) (dq roster : List Nat)
    (qi : Nat) (hinv : RegInv s0 fi roster s dq) :
    ∃ roster2,
      RegInv s0 fi roster2 (fnQueueStep own fi (s, dq) qi).1
        (fnQueueStep own fi (s, dq) qi).2 ∧
      (∀ r ∈ roster, r ∈ roster2) ∧
      (∀ r ∈ roster2, r ∈ roster ∨ r = qi) := by
  obtain ⟨hql, hfl, hres, hnd, hmem, hnot, hsubdq, hcnt⟩ := hinv
  by_cases hskip : some qi = own ∨ qi ∈ dq
  · refine ⟨roster, ?_, fun r hr => hr, fun r hr => Or.inl hr⟩
    rw [fnQueueStep_skip own fi s dq qi hskip]
    exact ⟨hql, hfl, hres, hnd, hmem, hnot, hsubdq, hcnt⟩
  · by_cases hresolved : (getQueue s qi).resolved = true
    · rw [fnQueueStep_resolved own fi s dq qi hskip hresolved]
      refine ⟨roster, ?_, fun r hr => hr, fun r hr => Or.inl hr⟩
      refine ⟨hql, hfl, hres, hnd, hmem, hnot, ?_, hcnt⟩
      intro r hr
      exact List.mem_append.mpr (Or.inl (hsubdq r hr))
    · have hresolved' : (getQueue s qi).resolved = false := by
        simpa using hresolved
      have hlt : qi < s.queues.length := lt_of_unresolved s qi hresolved'
      have hqnotro : qi ∉ roster := fun hq => hskip (Or.inr (hsubdq qi hq))
      have hfi_s : fi < s.fns.length := by rw [hfl]; exact hfi
      rw [fnQueueStep_push own fi s dq qi hskip hresolved']
      refine ⟨roster ++ [qi], ?_,
        fun r hr => List.mem_append.mpr (Or.inl hr),
        fun r hr => by
          rcases List.mem_append.mp hr with hr | hr
          · exact Or.inl hr
          · exact Or.inr (by simpa using hr)⟩
      have hq' : ∀ qj, getQueue (pushedState s qi fi) qj
          = (if qj = qi
             then Queue.mk (getQueue s qi).resolved ((getQueue s qi).fns ++ [fi])
             else getQueue s qj) := by
        intro qj
        by_cases hj : qj = qi
        · subst hj
          rw [if_pos rfl]
          show (s.queues.set qj (Queue.mk (getQueue s qj).resolved ((getQueue s qj).fns ++ [fi]))).getD qj qMissing = _
          rw [getD_set_self _ _ _ _ hlt]
        · rw [if_neg hj]
          show (s.queues.set qi (Queue.mk (getQueue s qi).resolved ((getQueue s qi).fns ++ [fi]))).getD qj qMissing = s.queues.getD qj qMissing
          rw [getD_set_ne _ _ _ _ _ hj]
      have hfn' : getFn (pushedState s qi fi) fi
          = ⟨(getFn s fi).queueCount + 1, (getFn s fi).fired⟩ := by
        apply getFn_setFn_self
        exact hfi_s
      refine ⟨?_, ?_, ?_, ?_, ?_, ?_, ?_, ?_⟩
      · show (s.queues.set qi _).length = s0.queues.length
        rw [List.length_set]
        exact hql
      · show (s.fns.set fi ⟨(getFn s fi).queueCount + 1, (getFn s fi).fired⟩).length = s0.fns.length
        rw [List.length_set]
        exact hfl
      · intro qj
        rw [hq' qj]
        by_cases hj : qj = qi
        · subst hj
          rw [if_pos rfl]
          exact hres qj
        · rw [if_neg hj]
          exact hres qj
      · refine List.Nodup.append hnd (List.nodup_singleton qi) ?_
        intro a ha hb
        rw [List.mem_singleton.mp hb] at ha
        exact hqnotro ha
      · intro qj hj
        rcases List.mem_append.mp hj with hj | hj
        · have hjne : qj ≠ qi := fun he => hqnotro (he ▸ hj)
          rw [hq' qj, if_neg hjne]
          exact hmem qj hj
        · have hje : qj = qi := by simpa using hj
          subst hje
          rw [hq' qj, if_pos rfl]
          constructor
          · show countIx ((getQueue s qj).fns ++ [fi]) fi = 1
            rw [countIx_append,
                countIx_eq_zero_of_not_mem _ _ (hnot qj hqnotro),
                countIx_cons]
            simp [countIx_nil]
          · rw [← hres qj]
            exact hresolved'
      · intro qj hj
        have hjro : qj ∉ roster := fun hm => hj (List.mem_append.mpr (Or.inl hm))
        have hjne : qj ≠ qi := fun he => hj (List.mem_append.mpr (Or.inr (by rw [he]; exact List.mem_singleton_self qi)))
        rw [hq' qj, if_neg hjne]
        exact hnot qj hjro
      · intro qj hj
        rcases List.mem_append.mp hj with hj | hj
        · exact List.mem_append.mpr (Or.inl (hsubdq qj hj))
        · exact List.mem_append.mpr (Or.inr hj)
      · rw [hfn', hcnt]
        show (⟨(roster.length : Int) + 1, 0⟩ : FnState) = _
        rw [List.length_append]
        congr 1

theorem regInv_fold (own : Option Nat) (fi : Nat) (s0 : AsyncState)
    (hfi : fi < s0.fns.length) (l : List Nat) :
    ∀ (s : AsyncState) (dq roster : List Nat), RegInv s0 fi roster s dq →
    ∃ roster2,
      RegInv s0 fi roster2 (l.foldl (fnQueueStep own fi) (s, dq)).1
        (l.foldl (fnQueueStep own fi) (s, dq)).2 ∧
      (∀ r ∈ roster, r ∈ roster2) ∧
      (∀ r ∈ roster2, r ∈ roster ∨ r ∈ l) := by
  induction l with
  | nil =>
    intro s dq roster h
    exact ⟨roster, h, fun r hr => hr, fun r hr => Or.inl hr⟩
  | cons qi l ih =>
    intro s dq roster h
    obtain ⟨roster1, h1, hsub1, hover1⟩ :=
      regInv_step own fi s0 hfi s dq roster qi h
    obtain ⟨roster2, h2, hsub2, hover2⟩ :=
      ih (fnQueueStep own fi (s, dq) qi).1 (fnQueueStep own fi (s, dq) qi).2
        roster1 h1
    refine ⟨roster2, ?_, fun r hr => hsub2 r (hsub1 r hr), ?_⟩
    · show RegInv s0 fi roster2
        (l.foldl (fnQueueStep own fi) (fnQueueStep own fi (s, dq) qi)).1
        (l.foldl (fnQueueStep own fi) (fnQueueStep own fi (s, dq) qi)).2
      exact h2
    · intro r hr
      rcases hover2 r hr with hr1 | hrl
      · rcases hover1 r hr1 with hro | hrq
        · exact Or.inl hro
        · exact Or.inr (by rw [hrq]; exact List.mem_cons_self qi l)
      · exact Or.inr (List.mem_cons_of_mem qi hrl)

theorem getD_mem {α : Type} (l : List α) (i : Nat) (d : α)
    (h : i < l.length) : l.getD i d ∈ l := by
  induction l generalizing i with
  | nil => simp at h
  | cons x l ih =>
    cases i with
    | zero => exact List.mem_cons_self x l
    | succ n =>
      show l.getD n d ∈ x :: l
      exact List.mem_cons_of_mem x (ih n (by simpa using h))

theorem mem_registeredIn (s : AsyncState) (fi qi : Nat) :
    qi ∈ registeredIn s fi
      ↔ (qi < s.queues.length ∧ fi ∈ (getQueue s qi).fns) := by
  unfold registeredIn
  rw [List.mem_filter, List.mem_range]
  constructor
  · rintro ⟨h1, h2⟩
    exact ⟨h1, of_decide_eq_true h2⟩
  · rintro ⟨h1, h2⟩
    exact ⟨h1, decide_eq_true h2⟩

theorem nodup_registeredIn (s : AsyncState) (fi : Nat) :
    (registeredIn s fi).Nodup :=
  (List.nodup_range s.queues.length).filter _

theorem had_registration (s : AsyncState) (own : Option Nat) (dq0 : List Nat)
    (deps : List Dep) (fi : Nat) (s1 S3 : AsyncState) (cds : List DepExt)
    (ret : HADReturn) (R : List Nat)
    (hwf : ∀ q ∈ s.queues, ∀ j ∈ q.fns, j < s.fns.length)
    (hfi : fi = s.fns.length)
    (hs1 : s1 = (wrapDeps s deps).1)
    (hcds : cds = (wrapDeps s deps).2)
    (hS3 : S3 = (handleAsyncDependencies s own dq0 deps).1)
    (hret : ret = (handleAsyncDependencies s own dq0 deps).2.2)
    (hR : R = registeredIn S3 fi) :
    FanInInv R fi S3 ∧
    (∀ qi ∈ R, (getQueue S3 qi).resolved = false ∧
      qi ∈ ((cds.map (·.tqueues)).flatten) ∧
      (getQueue s1 qi).resolved = false) ∧
    getFn S3 fi = ⟨(R.length : Int), 0⟩ ∧
    ret = (if R.isEmpty then HADReturn.syncVal (getResult cds)
           else HADReturn.pending fi) := by
  subst hfi hs1 hcds hS3 hret hR
  have hs1fns : (wrapDeps s deps).1.fns = s.fns := wrapDeps_fns deps s
  have hcore : handleAsyncDependencies s own dq0 deps
      = (if (getFn ((((wrapDeps s deps).2.map (·.tqueues)).flatten).foldl
              (fnQueueStep own s.fns.length)
              ({ (wrapDeps s deps).1 with
                  fns := (wrapDeps s deps).1.fns ++ [⟨0, 0⟩] }, dq0)).1
            s.fns.length).queueCount ≠ 0
         then (((((wrapDeps s deps).2.map (·.tqueues)).flatten).foldl
                (fnQueueStep own s.fns.length)
                ({ (wrapDeps s deps).1 with
                    fns := (wrapDeps s deps).1.fns ++ [⟨0, 0⟩] }, dq0)).1,
               ((((wrapDeps s deps).2.map (·.tqueues)).flatten).foldl
                (fnQueueStep own s.fns.length)
                ({ (wrapDeps s deps).1 with
                    fns := (wrapDeps s deps).1.fns ++ [⟨0, 0⟩] }, dq0)).2,
               HADReturn.pending s.fns.length)
         else (((((wrapDeps s deps).2.map (·.tqueues)).flatten).foldl
                (fnQueueStep own s.fns.length)
                ({ (wrapDeps s deps).1 with
                    fns := (wrapDeps s deps).1.fns ++ [⟨0, 0⟩] }, dq0)).1,
               ((((wrapDeps s deps).2.map (·.tqueues)).flatten).foldl
                (fnQueueStep own s.fns.length)
                ({ (wrapDeps s deps).1 with
                    fns := (wrapDeps s deps).1.fns ++ [⟨0, 0⟩] }, dq0)).2,
               HADReturn.syncVal (getResult (wrapDeps s deps).2))) := by
    simp only [handleAsyncDependencies]
    rw [hs1fns]
  have hfi2 : s.fns.length <
      ({ (wrapDeps s deps).1 with
          fns := (wrapDeps s deps).1.fns ++ [⟨0, 0⟩] } : AsyncState).fns.length := by
    show s.fns.length < ((wrapDeps s deps).1.fns ++ [(⟨0, 0⟩ : FnState)]).length
    rw [List.length_append, hs1fns]
    simp
  have hbase : RegInv
      { (wrapDeps s deps).1 with fns := (wrapDeps s deps).1.fns ++ [⟨0, 0⟩] }
      s.fns.length []
      { (wrapDeps s deps).1 with fns := (wrapDeps s deps).1.fns ++ [⟨0, 0⟩] }
      dq0 := by
    refine ⟨rfl, rfl, fun qi => rfl, List.nodup_nil,
      fun qi hqi => absurd hqi (List.not_mem_nil qi),
      ?_, fun qi hqi => absurd hqi (List.not_mem_nil qi), ?_⟩
    · intro qi hnil hq
      have hq2 : s.fns.length ∈ (getQueue (wrapDeps s deps).1 qi).fns := hq
      rw [wrapDeps_queue_fns deps s qi] at hq2
      by_cases hlt : qi < s.queues.length
      · have hmemq : getQueue s qi ∈ s.queues := getD_mem s.queues qi qMissing hlt
        have := hwf (getQueue s qi) hmemq s.fns.length hq2
        exact Nat.lt_irrefl _ this
      · have hq3 : getQueue s qi = qMissing :=
          getD_ge_length s.queues qi qMissing (Nat.le_of_not_lt hlt)
        rw [hq3] at hq2
        exact absurd hq2 (List.not_mem_nil _)
    · show ((wrapDeps s deps).1.fns ++ [(⟨0, 0⟩ : FnState)]).getD s.fns.length fnMissing
        = ⟨(([] : List Nat).length : Int), 0⟩
      rw [← hs1fns]
      rw [getD_append_length]
      rfl
  obtain ⟨roster2, hreg, hsub2, hover2⟩ :=
    regInv_fold own s.fns.length _ hfi2
      (((wrapDeps s deps).2.map (·.tqueues)).flatten)
      { (wrapDeps s deps).1 with fns := (wrapDeps s deps).1.fns ++ [⟨0, 0⟩] }
      dq0 [] hbase
  obtain ⟨hql, hfl, hres, hnd2, hmem2, hnot2, hsubdq2, hcnt2⟩ := hreg
  have hS3eq : (handleAsyncDependencies s own dq0 deps).1
      = ((((wrapDeps s deps).2.map (·.tqueues)).flatten).foldl
          (fnQueueStep own s.fns.length)
          ({ (wrapDeps s deps).1 with
              fns := (wrapDeps s deps).1.fns ++ [⟨0, 0⟩] }, dq0)).1 := by
    rw [hcore]
    by_cases hc : (getFn ((((wrapDeps s deps).2.map (·.tqueues)).flatten).foldl
        (fnQueueStep own s.fns.length)
        ({ (wrapDeps s deps).1 with
            fns := (wrapDeps s deps).1.fns ++ [⟨0, 0⟩] }, dq0)).1
        s.fns.length).queueCount ≠ 0
    · rw [if_pos hc]
    · rw [if_neg hc]
  have hmemiff : ∀ qi,
      qi ∈ registeredIn (handleAsyncDependencies s own dq0 deps).1 s.fns.length
        ↔ qi ∈ roster2 := by
    intro qi
    rw [mem_registeredIn]
    constructor
    · rintro ⟨h1, h2⟩
      by_contra hro
      rw [hS3eq] at h2
      exact hnot2 qi hro h2
    · intro hro
      obtain ⟨hc1, hr0⟩ := hmem2 qi hro
      constructor
      · rw [hS3eq, hql]
        show qi < ((wrapDeps s deps).1).queues.length
        have := lt_of_unresolved
          { (wrapDeps s deps).1 with
              fns := (wrapDeps s deps).1.fns ++ [⟨0, 0⟩] } qi hr0
        exact this
      · rw [hS3eq]
        exact mem_of_countIx_pos _ _ (by rw [hc1]; exact Nat.zero_lt_one)
  have hlen_eq :
      (registeredIn (handleAsyncDependencies s own dq0 deps).1 s.fns.length).length
        = roster2.length := by
    have hperm : List.Perm
        (registeredIn (handleAsyncDependencies s own dq0 deps).1 s.fns.length)
        roster2 :=
      (List.perm_ext_iff_of_nodup
        (nodup_registeredIn _ _) hnd2).mpr hmemiff
    exact hperm.length_eq
  have hallunres : ∀ qi ∈
      registeredIn (handleAsyncDependencies s own dq0 deps).1 s.fns.length,
      (getQueue (handleAsyncDependencies s own dq0 deps).1 qi).resolved = false := by
    intro qi hqi
    obtain ⟨hc1, hr0⟩ := hmem2 qi ((hmemiff qi).mp hqi)
    rw [hS3eq, hres qi]
    exact hr0
  have hcount3 : getFn (handleAsyncDependencies s own dq0 deps).1 s.fns.length
      = ⟨((registeredIn (handleAsyncDependencies s own dq0 deps).1
            s.fns.length).length : Int), 0⟩ := by
    rw [hlen_eq, hS3eq, hcnt2]
  have hcntF : (getFn ((((wrapDeps s deps).2.map (·.tqueues)).flatten).foldl
      (fnQueueStep own s.fns.length)
      ({ (wrapDeps s deps).1 with
          fns := (wrapDeps s deps).1.fns ++ [⟨0, 0⟩] }, dq0)).1
      s.fns.length).queueCount
      = ((registeredIn (handleAsyncDependencies s own dq0 deps).1
          s.fns.length).length : Int) := by
    rw [hcnt2, hlen_eq]
  refine ⟨?_, ?_, hcount3, ?_⟩
  · refine ⟨?_, ?_, ?_, ?_⟩
    · rw [hS3eq, hfl]
      exact hfi2
    · intro qi hqi
      rw [hS3eq]
      exact (hmem2 qi ((hmemiff qi).mp hqi)).1
    · intro qi hqi
      rw [hS3eq]
      exact hnot2 qi (fun hro => hqi ((hmemiff qi).mpr hro))
    · have huc : unresolvedCount (handleAsyncDependencies s own dq0 deps).1
          (registeredIn (handleAsyncDependencies s own dq0 deps).1 s.fns.length)
          = (registeredIn (handleAsyncDependencies s own dq0 deps).1
              s.fns.length).length := by
        unfold unresolvedCount
        rw [List.filter_eq_self.mpr]
        intro qi hqi
        rw [hallunres qi hqi]
        rfl
      rw [huc]
      by_cases hpos : 0 < (registeredIn (handleAsyncDependencies s own dq0 deps).1
          s.fns.length).length
      · rw [if_pos hpos]
        exact hcount3
      · rw [if_neg hpos]
        have hzero : (registeredIn (handleAsyncDependencies s own dq0 deps).1
            s.fns.length).length = 0 := by omega
        have hemp : (registeredIn (handleAsyncDependencies s own dq0 deps).1
            s.fns.length).isEmpty = true := by
          rw [List.isEmpty_iff_length_eq_zero]
          exact hzero
        rw [if_pos hemp]
        rw [hcount3, hzero]
        rfl
  · intro qi hqi
    refine ⟨hallunres qi hqi, ?_, ?_⟩
    · rcases hover2 qi ((hmemiff qi).mp hqi) with hin | hin
      · exact absurd hin (List.not_mem_nil qi)
      · exact hin
    · exact (hmem2 qi ((hmemiff qi).mp hqi)).2
  · by_cases hc : (getFn ((((wrapDeps s deps).2.map (·.tqueues)).flatten).foldl
        (fnQueueStep own s.fns.length)
        ({ (wrapDeps s deps).1 with
            fns := (wrapDeps s deps).1.fns ++ [⟨0, 0⟩] }, dq0)).1
        s.fns.length).queueCount ≠ 0
    · have hretv : (handleAsyncDependencies s own dq0 deps).2.2
          = HADReturn.pending s.fns.length := by
        rw [hcore, if_pos hc]
      have hne : (registeredIn (handleAsyncDependencies s own dq0 deps).1
          s.fns.length).isEmpty = false := by
        cases hb : (registeredIn (handleAsyncDependencies s own dq0 deps).1
            s.fns.length).isEmpty
        · rfl
        · exfalso
          have hzero : (registeredIn (handleAsyncDependencies s own dq0 deps).1
              s.fns.length).length = 0 :=
            List.isEmpty_iff_length_eq_zero.mp hb
          apply hc
          rw [hcntF, hzero]
          rfl
      rw [hretv, hne]
      simp
    · have hretv : (handleAsyncDependencies s own dq0 deps).2.2
          = HADReturn.syncVal (getResult (wrapDeps s deps).2) := by
        rw [hcore, if_neg hc]
      have hq0 : (getFn ((((wrapDeps s deps).2.map (·.tqueues)).flatten).foldl
          (fnQueueStep own s.fns.length)
          ({ (wrapDeps s deps).1 with
              fns := (wrapDeps s deps).1.fns ++ [⟨0, 0⟩] }, dq0)).1
          s.fns.length).queueCount = 0 := by
        by_contra hne2
        exact hc hne2
      rw [hcntF] at hq0
      have hzero : (registeredIn (handleAsyncDependencies s own dq0 deps).1
          s.fns.length).length = 0 := by
        exact_mod_cast hq0
      have hemp : (registeredIn (handleAsyncDependencies s own dq0 deps).1
          s.fns.length).isEmpty = true :=
        List.isEmpty_iff_length_eq_zero.mpr hzero
      rw [hretv, hemp]
      simp

/-- C1: the continuation registered by handleAsyncDependencies gets its
queueCount set to exactly the number of distinct unresolved queues it was
registered against (the registered queues are pairwise distinct and all
unresolved), and its action runs exactly once, exactly when that count
reaches zero, under every order and repetition of queue resolutions: while
some registered queue is unresolved the count equals the number of still
unresolved ones and the action has not run; once the last one resolves the
action has run exactly once; a continuation registered against no queue
never runs (the call completed synchronously instead). -/
theorem handleAsyncDependencies_fanin_exactly_once (s : AsyncState)
    (own : Option Nat) (dq0 : List Nat) (deps : List Dep) (rs : List Nat)
    (hwf : ∀ q ∈ s.queues, ∀ j ∈ q.fns, j < s.fns.length) :
    (getFn (handleAsyncDependencies s own dq0 deps).1 s.fns.length
        = ⟨((registeredIn (handleAsyncDependencies s own dq0 deps).1
              s.fns.length).length : Int), 0⟩ ∧
      (∀ qi ∈ registeredIn (handleAsyncDependencies s own dq0 deps).1
          s.fns.length,
        (getQueue (handleAsyncDependencies s own dq0 deps).1 qi).resolved
          = false)) ∧
    (0 < unresolvedCount
          (rs.foldl resolveQueue (handleAsyncDependencies s own dq0 deps).1)
          (registeredIn (handleAsyncDependencies s own dq0 deps).1
            s.fns.length) →
      getFn (rs.foldl resolveQueue (handleAsyncDependencies s own dq0 deps).1)
        s.fns.length
        = ⟨(unresolvedCount
            (rs.foldl resolveQueue (handleAsyncDependencies s own dq0 deps).1)
            (registeredIn (handleAsyncDependencies s own dq0 deps).1
              s.fns.length) : Int), 0⟩) ∧
    (unresolvedCount
        (rs.foldl resolveQueue (handleAsyncDependencies s own dq0 deps).1)
        (registeredIn (handleAsyncDependencies s own dq0 deps).1
          s.fns.length) = 0 →
      registeredIn (handleAsyncDependencies s own dq0 deps).1 s.fns.length
        ≠ [] →
      getFn (rs.foldl resolveQueue (handleAsyncDependencies s own dq0 deps).1)
        s.fns.length = ⟨-1, 1⟩) ∧
    (registeredIn (handleAsyncDependencies s own dq0 deps).1 s.fns.length
        = [] →
      getFn (rs.foldl resolveQueue (handleAsyncDependencies s own dq0 deps).1)
        s.fns.length = ⟨0, 0⟩) := by
  obtain ⟨hinv, hstat, hcnt, hret⟩ := had_registration s own dq0 deps
    s.fns.length (wrapDeps s deps).1 (handleAsyncDependencies s own dq0 deps).1
    (wrapDeps s deps).2 (handleAsyncDependencies s own dq0 deps).2.2
    (registeredIn (handleAsyncDependencies s own dq0 deps).1 s.fns.length)
    hwf rfl rfl rfl rfl rfl rfl
  have hnd := nodup_registeredIn (handleAsyncDependencies s own dq0 deps).1
    s.fns.length
  have hF := fanInInv_fold
    (registeredIn (handleAsyncDependencies s own dq0 deps).1 s.fns.length)
    s.fns.length hnd rs (handleAsyncDependencies s own dq0 deps).1 hinv
  obtain ⟨hFlen, hFcnt, hFnot, hFnum⟩ := hF
  refine ⟨⟨hcnt, fun qi hqi => (hstat qi hqi).1⟩, ?_, ?_, ?_⟩
  · intro hpos
    rw [if_pos hpos] at hFnum
    exact hFnum
  · intro hz hne
    rw [hz] at hFnum
    have hie : (registeredIn (handleAsyncDependencies s own dq0 deps).1
        s.fns.length).isEmpty = false := by
      cases hR : registeredIn (handleAsyncDependencies s own dq0 deps).1
          s.fns.length with
      | nil => exact absurd hR hne
      | cons a l => rfl
    rw [hie] at hFnum
    simp at hFnum
    exact hFnum
  · intro hemp
    rw [hemp] at hFnum
    simp [unresolvedCount] at hFnum
    exact hFnum

/-- Witness for C1: two unresolved queues, one continuation registered on
both; after resolving queue 1, then queue 0 (and a repeated no-op resolve of
queue 1) the continuation has fired exactly once; right after registration
the count was exactly 2. -/
theorem handleAsyncDependencies_fanin_witness :
    getFn ([1, 0, 1].foldl resolveQueue
        (handleAsyncDependencies ⟨[⟨false, []⟩, ⟨false, []⟩], []⟩ none []
          [Dep.ext ⟨JsVal.undefined, none, [0]⟩,
           Dep.ext ⟨JsVal.undefined, none, [1]⟩]).1) 0
      = ⟨-1, 1⟩ ∧
    getFn (handleAsyncDependencies ⟨[⟨false, []⟩, ⟨false, []⟩], []⟩ none []
        [Dep.ext ⟨JsVal.undefined, none, [0]⟩,
         Dep.ext ⟨JsVal.undefined, none, [1]⟩]).1 0
      = ⟨2, 0⟩ := by
  have h := handleAsyncDependencies_fanin_exactly_once
    ⟨[⟨false, []⟩, ⟨false, []⟩], []⟩ none []
    [Dep.ext ⟨JsVal.undefined, none, [0]⟩, Dep.ext ⟨JsVal.undefined, none, [1]⟩]
    [1, 0, 1] (by decide)
  refine ⟨h.2.2.1 (by decide) (by decide), ?_⟩
  have h1 := h.1.1
  exact h1.trans (by decide)

/-- C2 counterexample: with one plain, already-available dependency the
fast path of handleAsyncDependencies returns the value of getResult()
itself — the materialized list, array-shaped — and not a function yielding
that list, so the synchronous return is not the function the claim
describes. -/
theorem fastPath_returns_list_not_function :
    (handleAsyncDependencies ⟨[], []⟩ none [] [Dep.plain (JsVal.vint 1)]).2.2
      = HADReturn.syncVal (Except.ok [JsVal.vint 1]) ∧
    retShape (handleAsyncDependencies ⟨[], []⟩ none []
        [Dep.plain (JsVal.vint 1)]).2.2 = RetShape.arrayShape ∧
    RetShape.arrayShape ≠ RetShape.functionShape :=
  ⟨rfl, rfl, by decide⟩

/-- C2 amended: when every listed dependency is already resolved at
registration time, the pending count stays zero and the call returns
synchronously with the value of getResult() itself — the materialized value
list, or a synchronous raise of a stored dependency error — rather than a
function or any awaitable wrapper; an awaitable is returned only when at
least one queue the continuation was registered against is still
unresolved. -/
theorem handleAsyncDependencies_fastPath (s : AsyncState) (own : Option Nat)
    (dq0 : List Nat) (deps : List Dep)
    (hwf : ∀ q ∈ s.queues, ∀ j ∈ q.fns, j < s.fns.length) :
    ((∀ d ∈ deps, depOffersResolved s d = true) →
      getFn (handleAsyncDependencies s own dq0 deps).1 s.fns.length = ⟨0, 0⟩ ∧
      (handleAsyncDependencies s own dq0 deps).2.2
        = HADReturn.syncVal (getResult (wrapDeps s deps).2)) ∧
    (∀ fi2, (handleAsyncDependencies s own dq0 deps).2.2
        = HADReturn.pending fi2 →
      ∃ qi, fi2 ∈ (getQueue (handleAsyncDependencies s own dq0 deps).1 qi).fns
        ∧ (getQueue (handleAsyncDependencies s own dq0 deps).1 qi).resolved
            = false) := by
  obtain ⟨hinv, hstat, hcnt, hret⟩ := had_registration s own dq0 deps
    s.fns.length (wrapDeps s deps).1 (handleAsyncDependencies s own dq0 deps).1
    (wrapDeps s deps).2 (handleAsyncDependencies s own dq0 deps).2.2
    (registeredIn (handleAsyncDependencies s own dq0 deps).1 s.fns.length)
    hwf rfl rfl rfl rfl rfl rfl
  constructor
  · intro hall
    have hnoth : ∀ d ∈ deps, isThenable d = false := by
      intro d hd
      have hthis := hall d hd
      cases d with
      | plain v => rfl
      | thenable => simp [depOffersResolved] at hthis
      | ext e => rfl
    have hs1id : (wrapDeps s deps).1 = s := wrapDeps_no_thenable deps hnoth s
    have hRemp : registeredIn (handleAsyncDependencies s own dq0 deps).1
        s.fns.length = [] := by
      cases hR : registeredIn (handleAsyncDependencies s own dq0 deps).1
          s.fns.length with
      | nil => rfl
      | cons qi R2 =>
        exfalso
        have hqi : qi ∈ registeredIn (handleAsyncDependencies s own dq0 deps).1
            s.fns.length := by
          rw [hR]
          exact List.mem_cons_self qi R2
        obtain ⟨hun3, hflat, hun1⟩ := hstat qi hqi
        rw [hs1id] at hun1
        obtain ⟨e, hedeps, heq⟩ := mem_flatten_wrapDeps deps hnoth s qi hflat
        have hthis := hall _ hedeps
        simp only [depOffersResolved, List.all_eq_true] at hthis
        have hres2 := hthis qi heq
        rw [hun1] at hres2
        exact Bool.false_ne_true hres2
    constructor
    · rw [hRemp] at hcnt
      simpa using hcnt
    · rw [hRemp] at hret
      simpa using hret
  · intro fi2 hp
    rw [hret] at hp
    by_cases hemp : (registeredIn (handleAsyncDependencies s own dq0 deps).1
        s.fns.length).isEmpty = true
    · rw [if_pos hemp] at hp
      exact absurd hp (by simp)
    · rw [if_neg hemp] at hp
      have hfi2 : fi2 = s.fns.length := by
        injection hp with hinj
        exact hinj.symm
      have hne : registeredIn (handleAsyncDependencies s own dq0 deps).1
          s.fns.length ≠ [] := by
        intro h0
        apply hemp
        rw [h0]
        rfl
      cases hR : registeredIn (handleAsyncDependencies s own dq0 deps).1
          s.fns.length with
      | nil => exact absurd hR hne
      | cons qi R2 =>
        have hqi : qi ∈ registeredIn (handleAsyncDependencies s own dq0 deps).1
            s.fns.length := by
          rw [hR]
          exact List.mem_cons_self qi R2
        obtain ⟨hun3, _, _⟩ := hstat qi hqi
        obtain ⟨_, hcnts, _, _⟩ := hinv
        have hc1 := hcnts qi hqi
        refine ⟨qi, ?_, hun3⟩
        rw [hfi2]
        exact mem_of_countIx_pos _ _ (by rw [hc1]; exact Nat.zero_lt_one)

/-- Witness for the amended C2: a resolved async handle plus a plain value
take the fast path and the call returns the materialized list itself. -/
theorem handleAsyncDependencies_fastPath_witness :
    (handleAsyncDependencies ⟨[⟨true, []⟩], []⟩ none []
        [Dep.ext ⟨JsVal.vint 7, none, [0]⟩, Dep.plain (JsVal.vint 1)]).2.2
      = HADReturn.syncVal (Except.ok [JsVal.vint 7, JsVal.vint 1]) ∧
    getFn (handleAsyncDependencies ⟨[⟨true, []⟩], []⟩ none []
        [Dep.ext ⟨JsVal.vint 7, none, [0]⟩, Dep.plain (JsVal.vint 1)]).1 0
      = ⟨0, 0⟩ := by
  have h := (handleAsyncDependencies_fastPath ⟨[⟨true, []⟩], []⟩ none []
    [Dep.ext ⟨JsVal.vint 7, none, [0]⟩, Dep.plain (JsVal.vint 1)]
    (by decide)).1 (by decide)
  refine ⟨?_, h.1⟩
  rw [h.2]
  rfl

theorem getResult_ok (ds : List DepExt) (h : ∀ d ∈ ds, d.terror = none) :
    getResult ds = .ok (ds.map (·.texports)) := by
  induction ds with
  | nil => rfl
  | cons d ds ih =>
    have hd := h d (List.mem_cons_self d ds)
    have hrec := ih (fun x hx => h x (List.mem_cons_of_mem d hx))
    simp [getResult, hd, hrec]
    rfl

theorem getResult_first_error (pre : List DepExt) (d : DepExt)
    (post : List DepExt) (e : JsError) (hpre : ∀ x ∈ pre, x.terror = none)
    (hd : d.terror = some e) :
    getResult (pre ++ d :: post) = .error e := by
  induction pre with
  | nil => simp [getResult, hd]
  | cons p pre ih =>
    have hp := hpre p (List.mem_cons_self p pre)
    have hrec := ih (fun x hx => hpre x (List.mem_cons_of_mem p hx))
    simp [getResult, hp, hrec]
    rfl

def exceptIsOk {ε α : Type} : Except ε α → Bool
  | .ok _ => true
  | .error _ => false

/-- C3 counterexample: a fan-in whose second dependency stores an error
while the first and third succeeded.  Invoking the materialized result
(getResult) raises the failing dependency's stored error and produces no
value list at all, so the succeeding siblings' values cannot be read
through it, against the claim. -/
theorem getResult_sibling_counterexample :
    getResult [⟨JsVal.vint 1, none, []⟩,
               ⟨JsVal.obj [] JsVal.vnull, some ⟨"dep failed", none⟩, []⟩,
               ⟨JsVal.vint 2, none, []⟩]
      = Except.error ⟨"dep failed", none⟩ ∧
    exceptIsOk (getResult [⟨JsVal.vint 1, none, []⟩,
               ⟨JsVal.obj [] JsVal.vnull, some ⟨"dep failed", none⟩, []⟩,
               ⟨JsVal.vint 2, none, []⟩]) = false :=
  ⟨rfl, rfl⟩

/-- C3 amended: a dependency's failure is stored on its handle (the then
handler records the error and resolves the queue without raising), fan-in
itself returns either the synchronous getResult() value or a pending
promise — never a raised error channel of its own — and the stored error is
raised when the consumer invokes the materialized result: getResult throws
the stored error of the first failing dependency in list order, so that
invocation yields no sibling values; when no dependency failed it returns
all exports snapshots in order. -/
theorem asyncFaultDeferral_amended :
    (∀ (s : AsyncState) (d : DepExt) (qi : Nat) (e : JsError),
      (settleThenable s d qi (.error e)).2.terror = some e ∧
      (settleThenable s d qi (.error e)).2.texports = d.texports) ∧
    (∀ (s : AsyncState) (own : Option Nat) (dq0 : List Nat) (deps : List Dep),
      (∀ q ∈ s.queues, ∀ j ∈ q.fns, j < s.fns.length) →
      (handleAsyncDependencies s own dq0 deps).2.2
          = HADReturn.syncVal (getResult (wrapDeps s deps).2) ∨
      (handleAsyncDependencies s own dq0 deps).2.2
          = HADReturn.pending s.fns.length) ∧
    (∀ (pre : List DepExt) (d : DepExt) (post : List DepExt) (e : JsError),
      (∀ x ∈ pre, x.terror = none) → d.terror = some e →
      getResult (pre ++ d :: post) = .error e) ∧
    (∀ ds : List DepExt, (∀ d ∈ ds, d.terror = none) →
      getResult ds = .ok (ds.map (·.texports))) := by
  refine ⟨fun s d qi e => ⟨rfl, rfl⟩, ?_, getResult_first_error, getResult_ok⟩
  intro s own dq0 deps hwf
  obtain ⟨hinv, hstat, hcnt, hret⟩ := had_registration s own dq0 deps
    s.fns.length (wrapDeps s deps).1 (handleAsyncDependencies s own dq0 deps).1
    (wrapDeps s deps).2 (handleAsyncDependencies s own dq0 deps).2.2
    (registeredIn (handleAsyncDependencies s own dq0 deps).1 s.fns.length)
    hwf rfl rfl rfl rfl rfl rfl
  rw [hret]
  by_cases hemp : (registeredIn (handleAsyncDependencies s own dq0 deps).1
      s.fns.length).isEmpty = true
  · rw [if_pos hemp]
    exact Or.inl rfl
  · rw [if_neg hemp]
    exact Or.inr rfl

/-- Witness for the amended C3: the error settles onto the handle, and
getResult on concrete lists gives the first error or all values. -/
theorem asyncFaultDeferral_witness :
    (settleThenable ⟨[⟨false, []⟩], []⟩ ⟨JsVal.obj [] JsVal.vnull, none, [0]⟩ 0
        (.error ⟨"boom", none⟩)).2.terror = some ⟨"boom", none⟩ ∧
    getResult [⟨JsVal.vint 1, none, []⟩,
               ⟨JsVal.obj [] JsVal.vnull, some ⟨"boom", none⟩, []⟩]
      = Except.error ⟨"boom", none⟩ ∧
    getResult [⟨JsVal.vint 1, none, []⟩, ⟨JsVal.vint 2, none, []⟩]
      = Except.ok [JsVal.vint 1, JsVal.vint 2] := by
  refine ⟨(asyncFaultDeferral_amended.1 ⟨[⟨false, []⟩], []⟩
    ⟨JsVal.obj [] JsVal.vnull, none, [0]⟩ 0 ⟨"boom", none⟩).1, ?_, ?_⟩
  · exact asyncFaultDeferral_amended.2.2.1 [⟨JsVal.vint 1, none, []⟩]
      ⟨JsVal.obj [] JsVal.vnull, some ⟨"boom", none⟩, []⟩ [] ⟨"boom", none⟩
      (by intro x hx; rw [List.mem_singleton.mp hx]) rfl
  · exact asyncFaultDeferral_amended.2.2.2
      [⟨JsVal.vint 1, none, []⟩, ⟨JsVal.vint 2, none, []⟩]
      (by intro x hx; rcases List.mem_cons.mp hx with h | h
          · rw [h]
          · rw [List.mem_singleton.mp h])
